import Mathlib

/-!
Verification of the duckdb-parquet-parser repository: a shallow embedding of
its RLE/bit-pack codec, page writer, page reader, schema projection and
writer lifecycle, together with proofs settling the frozen claims C1..C10.

Machine integers are modelled as `Nat` (with explicit `% 2^w` where the C++
semantics truncates).  Byte buffers are `List Nat` whose elements are below
256 by construction.  Bitwise `|=` accumulations in the source always OR a
fresh, disjoint bit range into the accumulator, so they are rendered as
additions of the corresponding terms; each such place is commented.
-/

namespace ParquetParser

/-- Read a byte of a buffer; out-of-range reads yield 0 (the C++ would read
whatever memory follows, which never happens on the inputs of the theorems
below). -/
def byteAt (d : List Nat) (i : Nat) : Nat := d.getD i 0

/-- Little-endian byte rendering of `v` on `n` bytes, as produced by the
source loops `push_back(val & 0xFF); val >>= 8`. -/
def leBytes : Nat → Nat → List Nat
  | 0, _ => []
  | n + 1, v => (v % 256) :: leBytes n (v / 256)

/-- Little-endian value of a byte list (first byte least significant), as
read by the source loops `val |= byte << (i*8)` (the OR ranges are
disjoint, hence the additive form). -/
def leVal : List Nat → Nat
  | [] => 0
  | b :: bs => b % 256 + 256 * leVal bs

/-- Value of a little-endian bit list (entries 0 or 1), mirroring the
`val |= bit << i` accumulation loops of the source. -/
def bitsVal : List Nat → Nat
  | [] => 0
  | b :: bs => b + 2 * bitsVal bs

/-- Bit `off` (counted LSB-first across consecutive bytes) of the buffer
`d` starting at byte `base`: the source reads
`(d[base + off/8] >> (off%8)) & 1`. -/
def bitAt (d : List Nat) (base off : Nat) : Nat :=
  byteAt d (base + off / 8) / 2 ^ (off % 8) % 2

/-- `n` consecutive bits starting at bit offset `off` after byte `base`,
assembled LSB-first — the body of `RleDecoder::read_literal_value`'s
`for (i < bit_width) val |= bit << i` loop. -/
def readBits (d : List Nat) (base off : Nat) : Nat → Nat
  | 0 => 0
  | n + 1 => bitAt d base off + 2 * readBits d base (off + 1) n

/-- Unsigned LEB128 bytes of `v`, as emitted by the identical
`WriteVarint` loops of `RleBpEncoder` and `ThriftWriter`
(`push_back(value | 0x80); value >>= 7` then a final `push_back(value)`;
the `|0x80` cast to `uint8_t` is `value % 128 + 128`). -/
def writeVarintEnc (v : Nat) : List Nat :=
  if h : v < 128 then [v % 256]
  else (v % 128 + 128) :: writeVarintEnc (v / 128)
termination_by v
decreasing_by simp only [not_lt] at h; exact Nat.div_lt_self (by omega) (by omega)

/-! ### `RleDecoder` (src/include/rle_decoder.hpp) -/

structure RleDecoder where
  data : List Nat
  size : Nat
  pos : Nat
  bitWidth : Nat
  repeatCount : Nat
  literalCount : Nat
  currentValue : Nat
  literalPos : Nat
  literalBitOffset : Nat
deriving DecidableEq

/-- Loop body of `RleDecoder::read_varint32`; `fuel` is `size - pos` at
entry, an upper bound on the iterations of `while (pos_ < size_)`.
`result |= (b & 0x7F) << shift` on `uint32_t` ORs a disjoint bit range,
written here as adding `(b % 128 * 2^shift) % 2^32`. -/
def readVarintGo (d : List Nat) (size : Nat) : Nat → Nat → Nat → Nat → Nat × Nat
  | 0, pos, _, result => (result, pos)
  | fuel + 1, pos, shift, result =>
    if pos < size then
      let b := byteAt d pos
      let result1 := result + b % 128 * 2 ^ shift % 2 ^ 32
      if b / 128 % 2 = 0 then (result1, pos + 1)
      else readVarintGo d size fuel (pos + 1) (shift + 7) result1
    else (result, pos)

/-- `RleDecoder::read_varint32`. -/
def readVarint32 (d : List Nat) (size pos : Nat) : Nat × Nat :=
  readVarintGo d size (size - pos) pos 0 0

/-- Loop of `RleDecoder::read_fixed_width_value`:
`for (i < bytes_needed && pos < size) val |= data[pos++] << (i*8)`
(disjoint OR, additive form). Returns the value and the new position. -/
def readFixedGo (d : List Nat) (size : Nat) : Nat → Nat → Nat → Nat → Nat × Nat
  | 0, _, pos, val => (val, pos)
  | n + 1, i, pos, val =>
    if pos < size then
      readFixedGo d size n (i + 1) (pos + 1) (val + byteAt d pos * 2 ^ (8 * i))
    else (val, pos)

/-- `RleDecoder::read_fixed_width_value`. -/
def readFixedWidthValue (d : List Nat) (size pos bw : Nat) : Nat × Nat :=
  readFixedGo d size ((bw + 7) / 8) 0 pos 0

/-- `RleDecoder::next_counts`.  Returns `none` exactly when
`pos_ >= size_` (the C++ returns `false`). `literal_groups * 8` is a
`uint32_t` product. -/
def nextCounts (s : RleDecoder) : Option RleDecoder :=
  if s.size ≤ s.pos then none
  else
    let r := readVarint32 s.data s.size s.pos
    if r.1 % 2 = 1 then
      some { s with pos := r.2, literalCount := r.1 / 2 * 8 % 2 ^ 32,
                    literalPos := r.2, literalBitOffset := 0 }
    else
      let f := readFixedWidthValue s.data s.size r.2 s.bitWidth
      some { s with pos := f.2, repeatCount := r.1 / 2, currentValue := f.1 }

/-- `RleDecoder::read_literal_value`: reads `bit_width` bits at the current
literal offset; when this is the last buffered literal
(`literal_count_ == 1`) the stream position is advanced past the byte
holding the final bit. -/
def readLiteralValue (s : RleDecoder) : Nat × RleDecoder :=
  if s.bitWidth = 0 then (0, s)
  else
    let val := readBits s.data s.literalPos s.literalBitOffset s.bitWidth
    let off1 := s.literalBitOffset + s.bitWidth
    if s.literalCount = 1 then
      (val, { s with literalBitOffset := off1, pos := s.literalPos + (off1 + 7) / 8 })
    else (val, { s with literalBitOffset := off1 })

/-- `RleDecoder::get_batch`: produces exactly `n` values.  When both run
counters are zero a new run header is read; if the stream is exhausted
(`next_counts` fails) the *remaining requested values are filled with 0 and
the call returns normally* — the source has no error path here. -/
def getBatch (s : RleDecoder) : Nat → List Nat × RleDecoder
  | 0 => ([], s)
  | m + 1 =>
    match (if s.repeatCount = 0 ∧ s.literalCount = 0 then nextCounts s else some s) with
    | none => (List.replicate (m + 1) 0, s)
    | some s1 =>
      if 0 < s1.repeatCount then
        let r := getBatch { s1 with repeatCount := s1.repeatCount - 1 } m
        (s1.currentValue :: r.1, r.2)
      else
        let p := readLiteralValue s1
        let r := getBatch { p.2 with literalCount := p.2.literalCount - 1 } m
        (p.1 :: r.1, r.2)

/-- A decoder as constructed by `RleDecoder(data, size, bit_width)` but
positioned at byte `p` of `d` (constructor state has `p = 0`). -/
def freshDec (d : List Nat) (bw p : Nat) : RleDecoder :=
  ⟨d, d.length, p, bw, 0, 0, 0, 0, 0⟩

/-- Decoded values only, from a fresh decoder state at position `p`. -/
def decodeFrom (d : List Nat) (bw p n : Nat) : List Nat :=
  (getBatch (freshDec d bw p) n).1

/-- `RleDecoder(data, data_size, bit_width)` followed by
`get_batch(out, n)`. -/
def rleDecode (bw : Nat) (d : List Nat) (n : Nat) : List Nat :=
  decodeFrom d bw 0 n

/-! ### `RleBpEncoder` (src/include/writer/rle_bp_encoder.hpp) -/

structure RleBpEncoder where
  bitWidth : Nat
  byteWidth : Nat
  rleCount : Nat
  rleValue : Nat
  bpBuffer : List Nat
  result : List Nat
deriving DecidableEq

/-- `RleBpEncoder(bit_width)`. -/
def initEnc (bw : Nat) : RleBpEncoder :=
  ⟨bw, (bw + 7) / 8, 0, 0, [], []⟩

/-- Bit `t` of the bit-packed rendering of `vals` at width `bw`
(bit `t % bw` of value `t / bw`; positions past the values are the
zero-initialised padding of the output buffer). -/
def packBit (bw : Nat) (vals : List Nat) (t : Nat) : Nat :=
  vals.getD (t / bw) 0 / 2 ^ (t % bw) % 2

/-- Byte `k` of the bit-packed rendering of `vals`
(`PackValues` sets bit `i*bw + b` of the output to bit `b` of `values[i]`,
over a zero-initialised buffer). -/
def packByte (bw : Nat) (vals : List Nat) (k : Nat) : Nat :=
  bitsVal ((List.range 8).map fun j => packBit bw vals (8 * k + j))

/-- `RleBpEncoder::PackValues(values, count)`: `(count*bw + 7)/8` bytes. -/
def packValues (bw : Nat) (vals : List Nat) : List Nat :=
  (List.range ((vals.length * bw + 7) / 8)).map (packByte bw vals)

/-- `RleBpEncoder::FlushRle`: header varint `rle_count_ << 1 | 0` (a
`uint32_t` shift) then `byte_width_` little-endian value bytes. -/
def flushRle (e : RleBpEncoder) : RleBpEncoder :=
  { e with result := e.result ++ writeVarintEnc (2 * e.rleCount % 2 ^ 32)
                              ++ leBytes e.byteWidth e.rleValue,
           rleCount := 0 }

/-- `RleBpEncoder::FlushBitPacked`: one group of eight values, header
varint `1 << 1 | 1 = 3` then the packed bytes. -/
def flushBitPacked (e : RleBpEncoder) : RleBpEncoder :=
  { e with result := e.result ++ writeVarintEnc 3 ++ packValues e.bitWidth e.bpBuffer,
           bpBuffer := [] }

/-- `RleBpEncoder::FlushBitPackedPartial`: zero-pad the buffered group to
eight values, then flush it. -/
def flushBitPackedPartial (e : RleBpEncoder) : RleBpEncoder :=
  flushBitPacked
    { e with bpBuffer := e.bpBuffer ++ List.replicate (8 - e.bpBuffer.length) 0 }

/-- `RleBpEncoder::WriteValue` (the two locals `bp_buffer_ ++ [v]` of the
source are inlined). -/
def writeValue (e : RleBpEncoder) (v : Nat) : RleBpEncoder :=
  if e.bpBuffer.length ≠ 0 then
    (if (e.bpBuffer ++ [v]).length = 8
      then flushBitPacked { e with bpBuffer := e.bpBuffer ++ [v] }
      else { e with bpBuffer := e.bpBuffer ++ [v] })
  else if e.rleCount = 0 then
    { e with rleValue := v, rleCount := 1 }
  else if e.rleValue = v then
    { e with rleCount := e.rleCount + 1 }
  else if 4 ≤ e.rleCount then
    { flushRle e with rleValue := v, rleCount := 1 }
  else
    (if (List.replicate e.rleCount e.rleValue ++ [v]).length = 8
      then flushBitPacked { e with bpBuffer := List.replicate e.rleCount e.rleValue ++ [v],
                                   rleCount := 0 }
      else { e with bpBuffer := List.replicate e.rleCount e.rleValue ++ [v],
                    rleCount := 0 })

/-- `RleBpEncoder::FinishWrite(output)`: flush the pending run and append
the accumulated byte stream to the output. -/
def finishWrite (e : RleBpEncoder) : List Nat :=
  if 0 < e.rleCount then (flushRle e).result
  else if 0 < e.bpBuffer.length then (flushBitPackedPartial e).result
  else e.result

/-- Feed every element of `xs` to `WriteValue` then `FinishWrite`. -/
def rleEncode (bw : Nat) (xs : List Nat) : List Nat :=
  finishWrite (xs.foldl writeValue (initEnc bw))

/-! ### Bit-level lemmas -/

lemma bitsVal_div_pow_mod (bs : List Nat) (hb : ∀ b ∈ bs, b ≤ 1) :
    ∀ i, i < bs.length → bitsVal bs / 2 ^ i % 2 = bs.getD i 0 := by
  induction bs with
  | nil => intro i hi; simp at hi
  | cons b rest ih =>
    intro i hi
    have hb0 : b ≤ 1 := hb b (by simp)
    have hrest : ∀ x ∈ rest, x ≤ 1 := fun x hx => hb x (by simp [hx])
    cases i with
    | zero => simp only [bitsVal, pow_zero, Nat.div_one, List.getD_cons_zero]; omega
    | succ j =>
      have hdiv : (b + 2 * bitsVal rest) / 2 ^ (j + 1) = bitsVal rest / 2 ^ j := by
        rw [pow_succ, mul_comm (2 ^ j) 2, ← Nat.div_div_eq_div_mul]
        congr 1
        omega
      simp only [bitsVal, hdiv, List.getD_cons_succ]
      exact ih hrest j (by simpa using hi)

lemma bitsVal_lt_pow (bs : List Nat) (hb : ∀ b ∈ bs, b ≤ 1) :
    bitsVal bs < 2 ^ bs.length := by
  induction bs with
  | nil => simp [bitsVal]
  | cons b rest ih =>
    have hb0 : b ≤ 1 := hb b (by simp)
    have := ih (fun x hx => hb x (by simp [hx]))
    simp only [bitsVal, List.length_cons, pow_succ]
    omega

lemma bitsVal_bits (n : Nat) : ∀ v : Nat,
    bitsVal ((List.range n).map fun j => v / 2 ^ j % 2) = v % 2 ^ n := by
  induction n with
  | zero => intro v; simp [bitsVal, Nat.mod_one]
  | succ m ih =>
    intro v
    rw [List.range_succ_eq_map, List.map_cons, List.map_map]
    have hmap : ((fun j => v / 2 ^ j % 2) ∘ Nat.succ) = fun j => v / 2 / 2 ^ j % 2 := by
      funext j
      simp only [Function.comp_apply]
      rw [pow_succ, mul_comm, ← Nat.div_div_eq_div_mul]
    rw [hmap]
    simp only [bitsVal, pow_zero, Nat.div_one, ih (v / 2)]
    have h2 : (2 : Nat) ^ (m + 1) = 2 * 2 ^ m := by ring
    rw [h2, Nat.mod_mul]

lemma map_getD_range (l : List Nat) :
    (List.range l.length).map (fun i => l.getD i 0) = l := by
  induction l with
  | nil => simp
  | cons a t ih =>
    rw [List.length_cons, List.range_succ_eq_map, List.map_cons, List.map_map]
    have hmap : ((fun i => (a :: t).getD i 0) ∘ Nat.succ) = fun i => t.getD i 0 := by
      funext i; simp
    rw [hmap, ih]
    simp

@[simp]
lemma leBytes_length (n : Nat) : ∀ v, (leBytes n v).length = n := by
  induction n with
  | zero => intro v; simp [leBytes]
  | succ k ih => intro v; simp [leBytes, ih]

/-! ### Varint lemmas -/

lemma writeVarintEnc_small (v : Nat) (h : v < 128) : writeVarintEnc v = [v] := by
  rw [writeVarintEnc]
  simp only [h, dite_true]
  congr 1
  omega

lemma writeVarintEnc_ne_nil (v : Nat) : writeVarintEnc v ≠ [] := by
  rw [writeVarintEnc]
  split <;> simp

lemma readVarintGo_spec (v : Nat) :
    ∀ (pre rest : List Nat) (shift result fuel : Nat),
    result < 2 ^ shift → result + v * 2 ^ shift < 2 ^ 32 →
    (writeVarintEnc v).length ≤ fuel →
    readVarintGo (pre ++ (writeVarintEnc v ++ rest))
        (pre ++ (writeVarintEnc v ++ rest)).length fuel pre.length shift result
      = (result + v * 2 ^ shift, pre.length + (writeVarintEnc v).length) := by
  induction v using Nat.strong_induction_on with
  | _ v ih =>
    intro pre rest shift result fuel hres hlt hfuel
    have hpow : (0:Nat) < 2 ^ shift := pow_pos (by omega) shift
    have hfpos : 1 ≤ fuel := le_trans (by
      cases h : writeVarintEnc v with
      | nil => exact absurd h (writeVarintEnc_ne_nil v)
      | cons a t => simp) hfuel
    obtain ⟨f, rfl⟩ : ∃ f, fuel = f + 1 := ⟨fuel - 1, by omega⟩
    by_cases hv : v < 128
    · rw [writeVarintEnc_small v hv] at hfuel ⊢
      rw [readVarintGo]
      have hpos : pre.length < (pre ++ ([v] ++ rest)).length := by
        simp
      have hbyte : byteAt (pre ++ ([v] ++ rest)) pre.length = v := by
        unfold byteAt
        rw [List.getD_append_right _ _ _ _ (le_refl _)]
        simp
      rw [if_pos hpos]
      simp only [hbyte]
      have hterm : v % 128 * 2 ^ shift % 2 ^ 32 = v * 2 ^ shift := by
        rw [Nat.mod_eq_of_lt hv, Nat.mod_eq_of_lt (by omega)]
      rw [if_pos (by omega : v / 128 % 2 = 0), hterm]
      simp
    · -- v ≥ 128 : first byte is v % 128 + 128, then recurse on v / 128
      have henc : writeVarintEnc v = (v % 128 + 128) :: writeVarintEnc (v / 128) := by
        rw [writeVarintEnc]; rw [dif_neg hv]
      rw [henc] at hfuel ⊢
      rw [readVarintGo]
      have hpos : pre.length
          < (pre ++ ((v % 128 + 128) :: writeVarintEnc (v / 128) ++ rest)).length := by
        simp
      have hbyte : byteAt (pre ++ ((v % 128 + 128) :: writeVarintEnc (v / 128) ++ rest))
          pre.length = v % 128 + 128 := by
        unfold byteAt
        rw [List.getD_append_right _ _ _ _ (le_refl _)]
        simp
      rw [if_pos hpos]
      simp only [hbyte]
      have h2pow : (128 : Nat) * 2 ^ shift = 2 ^ (shift + 7) := by ring
      have h1 : v % 128 * 2 ^ shift ≤ 127 * 2 ^ shift :=
        Nat.mul_le_mul_right _ (by omega)
      have h127 : (127 : Nat) * 2 ^ shift + 2 ^ shift = 2 ^ (shift + 7) := by ring
      have hbound : 2 ^ (shift + 7) ≤ v * 2 ^ shift := by
        have h128 : (128 : Nat) * 2 ^ shift ≤ v * 2 ^ shift :=
          Nat.mul_le_mul_right _ (by omega)
        omega
      have hterm : v % 128 * 2 ^ shift % 2 ^ 32 = v % 128 * 2 ^ shift :=
        Nat.mod_eq_of_lt (by omega)
      rw [if_neg (by omega : ¬ (v % 128 + 128) / 128 % 2 = 0)]
      have hb7 : (v % 128 + 128) % 128 = v % 128 := by omega
      rw [hb7, hterm]
      have hkey : result + v % 128 * 2 ^ shift + v / 128 * 2 ^ (shift + 7)
          = result + v * 2 ^ shift := by
        have hvd := Nat.div_add_mod v 128
        set q := v / 128 with hq
        set r := v % 128 with hr
        rw [← hvd]
        ring
      have happ : pre ++ ((v % 128 + 128) :: writeVarintEnc (v / 128) ++ rest)
          = (pre ++ [v % 128 + 128]) ++ (writeVarintEnc (v / 128) ++ rest) := by
        simp
      rw [happ]
      have hlen1 : pre.length + 1 = (pre ++ [v % 128 + 128]).length := by simp
      rw [hlen1]
      rw [ih (v / 128) (Nat.div_lt_self (by omega) (by omega))
        (pre ++ [v % 128 + 128]) rest (shift + 7) (result + v % 128 * 2 ^ shift) f
        (by omega) (by omega) (by simp at hfuel; omega)]
      rw [hkey]
      simp
      omega

lemma readVarint32_spec (v : Nat) (pre rest : List Nat) (hv : v < 2 ^ 32) :
    readVarint32 (pre ++ (writeVarintEnc v ++ rest))
        (pre ++ (writeVarintEnc v ++ rest)).length pre.length
      = (v, pre.length + (writeVarintEnc v).length) := by
  unfold readVarint32
  have h := readVarintGo_spec v pre rest 0 0
    ((pre ++ (writeVarintEnc v ++ rest)).length - pre.length)
    (by simp) (by simpa using hv) (by simp)
  simpa using h

/-! ### Fixed-width value lemmas -/

lemma readFixedGo_spec (k : Nat) : ∀ (v : Nat) (pre rest : List Nat) (i val : Nat),
    v < 2 ^ (8 * k) →
    readFixedGo (pre ++ (leBytes k v ++ rest)) (pre ++ (leBytes k v ++ rest)).length
        k i pre.length val
      = (val + v * 2 ^ (8 * i), pre.length + k) := by
  induction k with
  | zero =>
    intro v pre rest i val hv
    have hv0 : v = 0 := by omega
    simp [readFixedGo, hv0]
  | succ k ih =>
    intro v pre rest i val hv
    rw [leBytes]
    rw [readFixedGo]
    have hpos : pre.length < (pre ++ ((v % 256 :: leBytes k (v / 256)) ++ rest)).length := by
      simp
    rw [if_pos hpos]
    have hbyte : byteAt (pre ++ ((v % 256 :: leBytes k (v / 256)) ++ rest)) pre.length
        = v % 256 := by
      unfold byteAt
      rw [List.getD_append_right _ _ _ _ (le_refl _)]
      simp
    rw [hbyte]
    have happ : pre ++ ((v % 256 :: leBytes k (v / 256)) ++ rest)
        = (pre ++ [v % 256]) ++ (leBytes k (v / 256) ++ rest) := by simp
    rw [happ, show pre.length + 1 = (pre ++ [v % 256]).length by simp]
    have hdv : v / 256 < 2 ^ (8 * k) := by
      have h8 : (2:Nat) ^ (8 * (k + 1)) = 2 ^ (8 * k) * 256 := by ring
      omega
    rw [ih (v / 256) (pre ++ [v % 256]) rest (i + 1) (val + v % 256 * 2 ^ (8 * i)) hdv]
    have hkey : val + v % 256 * 2 ^ (8 * i) + v / 256 * 2 ^ (8 * (i + 1))
        = val + v * 2 ^ (8 * i) := by
      have hvd := Nat.div_add_mod v 256
      set q := v / 256 with hq
      set r := v % 256 with hr
      rw [← hvd]
      ring
    rw [hkey]
    simp
    omega

lemma readFixedWidthValue_spec (bw v : Nat) (pre rest : List Nat) (hv : v < 2 ^ bw) :
    readFixedWidthValue (pre ++ (leBytes ((bw + 7) / 8) v ++ rest))
        (pre ++ (leBytes ((bw + 7) / 8) v ++ rest)).length pre.length bw
      = (v, pre.length + (bw + 7) / 8) := by
  unfold readFixedWidthValue
  have hb : v < 2 ^ (8 * ((bw + 7) / 8)) := by
    have hle : bw ≤ 8 * ((bw + 7) / 8) := by omega
    exact lt_of_lt_of_le hv (Nat.pow_le_pow_right (by omega) hle)
  have h := readFixedGo_spec ((bw + 7) / 8) v pre rest 0 0 hb
  simpa using h

/-! ### `get_batch` structural lemmas -/

lemma getBatch_fst_length (n : Nat) : ∀ s : RleDecoder, ((getBatch s n).1).length = n := by
  induction n with
  | zero => intro s; simp [getBatch]
  | succ m ih =>
    intro s
    rw [getBatch]
    rcases h : (if s.repeatCount = 0 ∧ s.literalCount = 0 then nextCounts s else some s)
      with _ | s1
    · simp
    · simp only []
      split
      · simp [ih]
      · simp [ih]

lemma getBatch_refill (s s1 : RleDecoder) (n : Nat) (h0 : s.repeatCount = 0)
    (h1 : s.literalCount = 0) (hs : nextCounts s = some s1)
    (hne : 0 < s1.repeatCount ∨ 0 < s1.literalCount) :
    getBatch s (n + 1) = getBatch s1 (n + 1) := by
  conv_lhs => rw [getBatch]
  conv_rhs => rw [getBatch]
  rw [if_pos ⟨h0, h1⟩, hs, if_neg (by omega)]

lemma getBatch_repeat (k : Nat) : ∀ (m : Nat) (s : RleDecoder),
    s.repeatCount = k → s.literalCount = 0 →
    (getBatch s (k + m)).1
      = List.replicate k s.currentValue ++ (getBatch { s with repeatCount := 0 } m).1 := by
  induction k with
  | zero =>
    intro m s h0 _
    have hse : { s with repeatCount := 0 } = s := by
      cases s; simp_all
    rw [hse]
    simp
  | succ k ih =>
    intro m s h0 h1
    obtain ⟨d, sz, p, bw, rc, lc, cv, lp, lbo⟩ := s
    simp only [] at h0 h1
    subst h0 h1
    rw [show k + 1 + m = (k + m) + 1 by omega, getBatch]
    rw [if_neg (by simp)]
    simp only []
    rw [if_pos (by simp)]
    simp only []
    have := ih m ⟨d, sz, p, bw, k + 1 - 1, 0, cv, lp, lbo⟩ (by simp) rfl
    rw [this]
    simp [List.replicate_succ]

lemma getBatch_literal_take (j : Nat) : ∀ (s : RleDecoder),
    s.repeatCount = 0 → j ≤ s.literalCount → 0 < s.bitWidth →
    (getBatch s j).1
      = (List.range j).map
          (fun i => readBits s.data s.literalPos (s.literalBitOffset + i * s.bitWidth)
            s.bitWidth) := by
  induction j with
  | zero => intro s _ _ _; simp [getBatch]
  | succ j ih =>
    intro s h0 hj hbw
    obtain ⟨d, sz, p, bw, rc, lc, cv, lp, lbo⟩ := s
    subst h0
    have hjx : j + 1 ≤ lc := hj
    have hbwx : 0 < bw := hbw
    rw [getBatch]
    rw [if_neg (by simp; omega)]
    simp only []
    rw [if_neg (by simp)]
    simp only [readLiteralValue, if_neg (by omega : ¬ bw = 0)]
    by_cases hlc : lc = 1
    · have hj0 : j = 0 := by omega
      subst hj0 hlc
      simp [getBatch, List.range_succ]
    · simp only [if_neg hlc]
      have hrec := ih ⟨d, sz, p, bw, 0, lc - 1, cv, lp, lbo + bw⟩
        (by simp) (by simp; omega) (by simpa using hbwx)
      rw [hrec]
      rw [List.range_succ_eq_map, List.map_cons, List.map_map]
      simp only [Nat.zero_mul, Nat.add_zero]
      congr 1
      apply List.map_congr_left
      intro i _
      simp only [Function.comp_apply]
      congr 1
      rw [Nat.succ_mul]
      ring

lemma getBatch_literal_all (c : Nat) : ∀ (m : Nat) (s : RleDecoder),
    s.repeatCount = 0 → s.literalCount = c → 1 ≤ c → 0 < s.bitWidth →
    (getBatch s (c + m)).1
      = (List.range c).map
          (fun i => readBits s.data s.literalPos (s.literalBitOffset + i * s.bitWidth)
            s.bitWidth)
        ++ (getBatch
              { s with pos := s.literalPos
                          + (s.literalBitOffset + c * s.bitWidth + 7) / 8,
                       literalCount := 0,
                       literalBitOffset := s.literalBitOffset + c * s.bitWidth } m).1 := by
  induction c with
  | zero => intro m s _ _ h1 _; omega
  | succ c ih =>
    intro m s h0 hc h1 hbw
    obtain ⟨d, sz, p, bw, rc, lc, cv, lp, lbo⟩ := s
    subst h0 hc
    have hbwx : 0 < bw := hbw
    rw [show c + 1 + m = (c + m) + 1 by omega, getBatch]
    rw [if_neg (by simp)]
    simp only []
    rw [if_neg (by simp)]
    simp only [readLiteralValue, if_neg (by omega : ¬ bw = 0)]
    by_cases hc0 : c = 0
    · subst hc0
      simp only [if_pos rfl]
      simp [List.range_succ]
    · rw [if_neg (by omega : ¬ c + 1 = 1)]
      simp only []
      have hrec := ih m ⟨d, sz, p, bw, 0, c + 1 - 1, cv, lp, lbo + bw⟩
        (by simp) (by simp) (by omega) (by simpa using hbw)
      simp only [Nat.add_sub_cancel] at hrec ⊢
      rw [hrec]
      rw [List.range_succ_eq_map, List.map_cons, List.map_map]
      simp only [Nat.zero_mul, Nat.add_zero]
      rw [List.cons_append]
      have hmul : (c + 1) * bw = c * bw + bw := Nat.succ_mul c bw
      congr 1
      congr 1
      · apply List.map_congr_left
        intro i _
        simp only [Function.comp_apply]
        congr 1
        rw [Nat.succ_mul]
        ring
      · rw [show lbo + (c + 1) * bw = lbo + bw + c * bw by rw [hmul]; ring]

/-! ### Bit-packed group extraction -/

lemma readBits_eq_bitsVal (d : List Nat) (base : Nat) : ∀ (n off : Nat),
    readBits d base off n
      = bitsVal ((List.range n).map fun j => bitAt d base (off + j)) := by
  intro n
  induction n with
  | zero => intro off; simp [readBits, bitsVal]
  | succ k ih =>
    intro off
    rw [readBits, List.range_succ_eq_map, List.map_cons, List.map_map]
    simp only [Nat.add_zero, bitsVal]
    congr 1
    rw [ih (off + 1)]
    congr 1
    congr 1
    apply List.map_congr_left
    intro j _
    simp only [Function.comp_apply]
    congr 1
    omega

lemma packValues_length_eight (bw : Nat) (vals : List Nat) (h : vals.length = 8) :
    (packValues bw vals).length = bw := by
  simp only [packValues, List.length_map, List.length_range, h]
  omega

lemma byteAt_append_mid (pre mid rest : List Nat) (k : Nat) (hk : k < mid.length) :
    byteAt (pre ++ (mid ++ rest)) (pre.length + k) = byteAt mid k := by
  unfold byteAt
  rw [List.getD_append_right _ _ _ _ (by omega)]
  rw [Nat.add_sub_cancel_left]
  rw [List.getD_append _ _ _ _ hk]

lemma byteAt_packValues (bw : Nat) (vals : List Nat) (k : Nat)
    (hk : k < (vals.length * bw + 7) / 8) :
    byteAt (packValues bw vals) k = packByte bw vals k := by
  unfold byteAt packValues
  rw [List.getD_eq_getElem _ _ (by simpa using hk)]
  simp

lemma packByte_bit (bw : Nat) (vals : List Nat) (k j : Nat) (hj : j < 8) :
    packByte bw vals k / 2 ^ j % 2 = packBit bw vals (8 * k + j) := by
  unfold packByte
  rw [bitsVal_div_pow_mod _ (by
    intro b hb
    simp only [List.mem_map] at hb
    obtain ⟨a, _, rfl⟩ := hb
    unfold packBit
    omega) j (by simpa using hj)]
  rw [List.getD_eq_getElem _ _ (by simpa using hj)]
  simp

lemma packByte_lt (bw : Nat) (vals : List Nat) (k : Nat) : packByte bw vals k < 256 := by
  unfold packByte
  have h := bitsVal_lt_pow ((List.range 8).map fun j => packBit bw vals (8 * k + j)) (by
    intro b hb
    simp only [List.mem_map] at hb
    obtain ⟨a, _, rfl⟩ := hb
    unfold packBit
    omega)
  simpa using h

lemma bitAt_pack (pre rest vals : List Nat) (bw t : Nat) (ht : t < vals.length * bw) :
    bitAt (pre ++ (packValues bw vals ++ rest)) pre.length t = packBit bw vals t := by
  unfold bitAt
  have hk : t / 8 < (vals.length * bw + 7) / 8 := by omega
  rw [byteAt_append_mid pre _ rest (t / 8) (by
    simp only [packValues, List.length_map, List.length_range]
    exact hk)]
  rw [byteAt_packValues _ _ _ hk]
  rw [packByte_bit _ _ _ _ (Nat.mod_lt _ (by omega))]
  congr 1
  omega

lemma packBit_eq (bw : Nat) (vals : List Nat) (i j : Nat) (hbw : 0 < bw) (hj : j < bw) :
    packBit bw vals (i * bw + j) = vals.getD i 0 / 2 ^ j % 2 := by
  unfold packBit
  have h1 : (i * bw + j) / bw = i := by
    rw [mul_comm, Nat.mul_add_div hbw]
    simp [Nat.div_eq_of_lt hj]
  have h2 : (i * bw + j) % bw = j := by
    rw [mul_comm, Nat.mul_add_mod]
    exact Nat.mod_eq_of_lt hj
  rw [h1, h2]

lemma readBits_pack (pre rest vals : List Nat) (bw i : Nat) (hbw : 0 < bw)
    (hi : i < vals.length) (hv : ∀ x ∈ vals, x < 2 ^ bw) :
    readBits (pre ++ (packValues bw vals ++ rest)) pre.length (i * bw) bw
      = vals.getD i 0 := by
  rw [readBits_eq_bitsVal]
  have hmap : (List.range bw).map
        (fun j => bitAt (pre ++ (packValues bw vals ++ rest)) pre.length (i * bw + j))
      = (List.range bw).map (fun j => vals.getD i 0 / 2 ^ j % 2) := by
    apply List.map_congr_left
    intro j hj
    simp only [List.mem_range] at hj
    have hlt : i * bw + j < vals.length * bw := by
      have hmle : (i + 1) * bw ≤ vals.length * bw := Nat.mul_le_mul_right bw hi
      have hsm : (i + 1) * bw = i * bw + bw := Nat.succ_mul i bw
      omega
    rw [bitAt_pack pre rest vals bw _ hlt, packBit_eq bw vals i j hbw hj]
  rw [hmap, bitsVal_bits bw (vals.getD i 0)]
  rw [List.getD_eq_getElem _ _ hi]
  exact Nat.mod_eq_of_lt (hv _ (List.getElem_mem hi))

/-! ### Decoding one emitted run -/

lemma decode_rle_run (s : RleDecoder) (n v m : Nat) (pre rest : List Nat)
    (h0 : s.repeatCount = 0) (h1 : s.literalCount = 0)
    (hd : s.data = pre ++ (writeVarintEnc (2 * n)
                    ++ (leBytes ((s.bitWidth + 7) / 8) v ++ rest)))
    (hsz : s.size = s.data.length) (hp : s.pos = pre.length)
    (hn : 1 ≤ n) (hn32 : 2 * n < 2 ^ 32) (hv : v < 2 ^ s.bitWidth) :
    (getBatch s (n + m)).1 = List.replicate n v ++
      (getBatch { s with pos := pre.length + (writeVarintEnc (2 * n)).length
                                  + (s.bitWidth + 7) / 8,
                         repeatCount := 0, currentValue := v } m).1 := by
  obtain ⟨d, sz, p, bw, rc, lc, cv, lp, lbo⟩ := s
  subst h0 h1
  replace hd : d = pre ++ (writeVarintEnc (2 * n) ++ (leBytes ((bw + 7) / 8) v ++ rest)) := hd
  replace hv : v < 2 ^ bw := hv
  replace hp : p = pre.length := hp
  replace hsz : sz = d.length := hsz
  subst hd hp hsz
  have hvar := readVarint32_spec (2 * n) pre (leBytes ((bw + 7) / 8) v ++ rest) hn32
  have hfix : readFixedWidthValue
      (pre ++ (writeVarintEnc (2 * n) ++ (leBytes ((bw + 7) / 8) v ++ rest)))
      (pre ++ (writeVarintEnc (2 * n) ++ (leBytes ((bw + 7) / 8) v ++ rest))).length
      (pre.length + (writeVarintEnc (2 * n)).length) bw = (v, pre.length
        + (writeVarintEnc (2 * n)).length + (bw + 7) / 8) := by
    have h := readFixedWidthValue_spec bw v (pre ++ writeVarintEnc (2 * n)) rest hv
    simp only [List.append_assoc, List.length_append] at h ⊢
    convert h using 2
  have hnext : nextCounts
      ⟨pre ++ (writeVarintEnc (2 * n) ++ (leBytes ((bw + 7) / 8) v ++ rest)),
       (pre ++ (writeVarintEnc (2 * n) ++ (leBytes ((bw + 7) / 8) v ++ rest))).length,
       pre.length, bw, 0, 0, cv, lp, lbo⟩
      = some ⟨pre ++ (writeVarintEnc (2 * n) ++ (leBytes ((bw + 7) / 8) v ++ rest)),
       (pre ++ (writeVarintEnc (2 * n) ++ (leBytes ((bw + 7) / 8) v ++ rest))).length,
       pre.length + (writeVarintEnc (2 * n)).length + (bw + 7) / 8, bw, n, 0, v, lp, lbo⟩ := by
    unfold nextCounts
    rw [if_neg (by
      simp only [not_le, List.length_append]
      have := writeVarintEnc_ne_nil (2 * n)
      cases h : writeVarintEnc (2 * n) with
      | nil => exact absurd h this
      | cons a t => simp [h])]
    simp only [hvar]
    rw [if_neg (by norm_num [Nat.mul_mod_right])]
    simp only [hfix]
    simp only [Option.some.injEq, RleDecoder.mk.injEq, and_true, true_and]
    omega
  obtain ⟨k, rfl⟩ : ∃ k, n = k + 1 := ⟨n - 1, by omega⟩
  rw [show k + 1 + m = (k + m) + 1 by omega]
  rw [getBatch_refill _ _ _ rfl rfl hnext (by simp)]
  rw [show (k + m) + 1 = (k + 1) + m by omega]
  rw [getBatch_repeat (k + 1) m _ rfl rfl]

lemma decode_bp_group (s : RleDecoder) (vals : List Nat) (m : Nat) (pre rest : List Nat)
    (h0 : s.repeatCount = 0) (h1 : s.literalCount = 0)
    (hd : s.data = pre ++ ([3] ++ (packValues s.bitWidth vals ++ rest)))
    (hsz : s.size = s.data.length) (hp : s.pos = pre.length)
    (hlen : vals.length = 8) (hbw : 0 < s.bitWidth) (hv : ∀ x ∈ vals, x < 2 ^ s.bitWidth) :
    (getBatch s (8 + m)).1 = vals ++
      (getBatch { s with pos := pre.length + 1 + s.bitWidth,
                         literalCount := 0, literalPos := pre.length + 1,
                         literalBitOffset := 8 * s.bitWidth } m).1 := by
  obtain ⟨d, sz, p, bw, rc, lc, cv, lp, lbo⟩ := s
  subst h0 h1
  replace hd : d = pre ++ ([3] ++ (packValues bw vals ++ rest)) := hd
  replace hbw : 0 < bw := hbw
  replace hv : ∀ x ∈ vals, x < 2 ^ bw := hv
  replace hp : p = pre.length := hp
  replace hsz : sz = d.length := hsz
  subst hd hp hsz
  have h3 : [3] = writeVarintEnc 3 := (writeVarintEnc_small 3 (by omega)).symm
  have hvar := readVarint32_spec 3 pre (packValues bw vals ++ rest) (by omega)
  rw [← h3] at hvar
  have hnext : nextCounts
      ⟨pre ++ ([3] ++ (packValues bw vals ++ rest)),
       (pre ++ ([3] ++ (packValues bw vals ++ rest))).length,
       pre.length, bw, 0, 0, cv, lp, lbo⟩
      = some ⟨pre ++ ([3] ++ (packValues bw vals ++ rest)),
       (pre ++ ([3] ++ (packValues bw vals ++ rest))).length,
       pre.length + 1, bw, 0, 8, cv, pre.length + 1, 0⟩ := by
    unfold nextCounts
    rw [if_neg (by simp)]
    simp only [hvar]
    rw [if_pos (by norm_num)]
    simp only [Option.some.injEq, RleDecoder.mk.injEq, and_true, true_and]
    norm_num
  rw [show 8 + m = (7 + m) + 1 by omega]
  rw [getBatch_refill _ _ _ rfl rfl hnext (by simp)]
  rw [show (7 + m) + 1 = 8 + m by omega]
  rw [getBatch_literal_all 8 m _ rfl rfl (by omega) (by simpa using hbw)]
  simp only [Nat.zero_add]
  congr 1
  · have hmap : (List.range 8).map
          (fun i => readBits (pre ++ ([3] ++ (packValues bw vals ++ rest)))
            (pre.length + 1) (i * bw) bw)
        = (List.range 8).map (fun i => vals.getD i 0) := by
      apply List.map_congr_left
      intro i hi
      simp only [List.mem_range] at hi
      have happ : pre ++ ([3] ++ (packValues bw vals ++ rest))
          = (pre ++ [3]) ++ (packValues bw vals ++ rest) := by simp
      rw [happ, show pre.length + 1 = (pre ++ [3]).length by simp]
      exact readBits_pack (pre ++ [3]) rest vals bw i hbw (by omega) hv
    rw [hmap, ← hlen, map_getD_range]
  · rw [show (8 * bw + 7) / 8 = bw by omega]

lemma decode_bp_tail (s : RleDecoder) (vals : List Nat) (k : Nat) (pre rest : List Nat)
    (h0 : s.repeatCount = 0) (h1 : s.literalCount = 0)
    (hd : s.data = pre ++ ([3] ++ (packValues s.bitWidth vals ++ rest)))
    (hsz : s.size = s.data.length) (hp : s.pos = pre.length)
    (hlen : vals.length = 8) (hk1 : 1 ≤ k) (hk : k ≤ 8)
    (hbw : 0 < s.bitWidth) (hv : ∀ x ∈ vals, x < 2 ^ s.bitWidth) :
    (getBatch s k).1 = (List.range k).map (fun i => vals.getD i 0) := by
  obtain ⟨d, sz, p, bw, rc, lc, cv, lp, lbo⟩ := s
  subst h0 h1
  replace hd : d = pre ++ ([3] ++ (packValues bw vals ++ rest)) := hd
  replace hbw : 0 < bw := hbw
  replace hv : ∀ x ∈ vals, x < 2 ^ bw := hv
  replace hp : p = pre.length := hp
  replace hsz : sz = d.length := hsz
  subst hd hp hsz
  have h3 : [3] = writeVarintEnc 3 := (writeVarintEnc_small 3 (by omega)).symm
  have hvar := readVarint32_spec 3 pre (packValues bw vals ++ rest) (by omega)
  rw [← h3] at hvar
  have hnext : nextCounts
      ⟨pre ++ ([3] ++ (packValues bw vals ++ rest)),
       (pre ++ ([3] ++ (packValues bw vals ++ rest))).length,
       pre.length, bw, 0, 0, cv, lp, lbo⟩
      = some ⟨pre ++ ([3] ++ (packValues bw vals ++ rest)),
       (pre ++ ([3] ++ (packValues bw vals ++ rest))).length,
       pre.length + 1, bw, 0, 8, cv, pre.length + 1, 0⟩ := by
    unfold nextCounts
    rw [if_neg (by simp)]
    simp only [hvar]
    rw [if_pos (by norm_num)]
    simp only [Option.some.injEq, RleDecoder.mk.injEq, and_true, true_and]
    norm_num
  obtain ⟨j, rfl⟩ : ∃ j, k = j + 1 := ⟨k - 1, by omega⟩
  rw [getBatch_refill _ _ _ rfl rfl hnext (by simp)]
  rw [getBatch_literal_take (j + 1) _ rfl (by simpa using hk) (by simpa using hbw)]
  apply List.map_congr_left
  intro i hi
  simp only [List.mem_range] at hi
  simp only [Nat.zero_add]
  have happ : pre ++ ([3] ++ (packValues bw vals ++ rest))
      = (pre ++ [3]) ++ (packValues bw vals ++ rest) := by simp
  rw [happ, show pre.length + 1 = (pre ++ [3]).length by simp]
  exact readBits_pack (pre ++ [3]) rest vals bw i hbw (by omega) hv

/-! ### Encoder invariant and round-trip -/

/-- Values buffered inside the encoder but not yet rendered to bytes. -/
def pending (e : RleBpEncoder) : List Nat :=
  List.replicate e.rleCount e.rleValue ++ e.bpBuffer

/-- Encoder well-formedness: the state reachable from `initEnc bw` while
feeding values below `2 ^ bw`, with `N` a global bound on run lengths. -/
def encWF (bw N : Nat) (e : RleBpEncoder) : Prop :=
  e.bitWidth = bw ∧ e.byteWidth = (bw + 7) / 8 ∧
  (e.rleCount = 0 ∨ e.bpBuffer = []) ∧
  e.bpBuffer.length < 8 ∧
  (∀ x ∈ e.bpBuffer, x < 2 ^ bw) ∧
  (0 < e.rleCount → e.rleValue < 2 ^ bw) ∧
  e.rleCount ≤ N ∧
  (bw = 0 → e.bpBuffer = [])

lemma writeValue_result (e : RleBpEncoder) (w : Nat) :
    ∃ t, (writeValue e w).result = e.result ++ t := by
  unfold writeValue flushBitPacked flushRle
  repeat' split
  all_goals first
    | exact ⟨_, List.append_assoc _ _ _⟩
    | exact ⟨[], (List.append_nil _).symm⟩

lemma foldl_result (ws : List Nat) : ∀ e : RleBpEncoder,
    ∃ t, (ws.foldl writeValue e).result = e.result ++ t := by
  induction ws with
  | nil => intro e; exact ⟨[], by simp⟩
  | cons w ws ih =>
    intro e
    rw [List.foldl_cons]
    obtain ⟨t1, h1⟩ := writeValue_result e w
    obtain ⟨t2, h2⟩ := ih (writeValue e w)
    exact ⟨t1 ++ t2, by rw [h2, h1]; simp⟩

lemma finishWrite_result (e : RleBpEncoder) :
    ∃ t, finishWrite e = e.result ++ t := by
  unfold finishWrite flushBitPackedPartial flushBitPacked flushRle
  repeat' split
  all_goals first
    | exact ⟨_, List.append_assoc _ _ _⟩
    | exact ⟨[], (List.append_nil _).symm⟩

lemma encode_tail (ws : List Nat) (e : RleBpEncoder) :
    ∃ t, finishWrite (ws.foldl writeValue e) = e.result ++ t := by
  obtain ⟨t1, h1⟩ := foldl_result ws e
  obtain ⟨t2, h2⟩ := finishWrite_result (ws.foldl writeValue e)
  exact ⟨t1 ++ t2, by rw [h2, h1]; simp⟩

lemma pending_length (e : RleBpEncoder) :
    (pending e).length = e.rleCount + e.bpBuffer.length := by
  simp [pending]

/-- Main induction: decoding the remainder of the stream produced by
feeding `ws` into a well-formed encoder state `e` (and finishing) yields
the encoder's pending values followed by `ws`. -/
lemma enc_dec_main (bw N : Nat) (hN : N < 2 ^ 31) :
    ∀ (ws : List Nat) (e : RleBpEncoder) (s : RleDecoder),
    encWF bw N e → (∀ x ∈ ws, x < 2 ^ bw) →
    e.rleCount + ws.length ≤ N →
    s.data = finishWrite (ws.foldl writeValue e) →
    s.size = s.data.length → s.pos = e.result.length → s.bitWidth = bw →
    s.repeatCount = 0 → s.literalCount = 0 →
    (getBatch s ((pending e).length + ws.length)).1 = pending e ++ ws := by
  intro ws
  induction ws with
  | nil =>
    intro e s hWF hws hcnt hd hsz hp hbwd h0 h1
    obtain ⟨hbwE, hbwid, hor, hlt8, hbpv, hrv, hrcN, hbw0⟩ := hWF
    simp only [List.foldl_nil] at hd
    by_cases hrc : e.rleCount = 0
    · by_cases hbp : e.bpBuffer = []
      · simp [pending, hrc, hbp, getBatch]
      · have hbwpos : 0 < bw := by
          rcases Nat.eq_zero_or_pos bw with h | h
          · exact absurd (hbw0 h) hbp
          · exact h
        have hlen1 : 0 < e.bpBuffer.length := List.length_pos.mpr hbp
        have hpadlen : (e.bpBuffer ++ List.replicate (8 - e.bpBuffer.length) 0).length
            = 8 := by
          simp
          omega
        have hfin : finishWrite e = e.result
            ++ ([3] ++ (packValues bw
                  (e.bpBuffer ++ List.replicate (8 - e.bpBuffer.length) 0) ++ [])) := by
          unfold finishWrite flushBitPackedPartial flushBitPacked
          rw [if_neg (by omega), if_pos hlen1]
          rw [writeVarintEnc_small 3 (by omega), hbwE]
          simp
        have hpadv : ∀ x ∈ e.bpBuffer ++ List.replicate (8 - e.bpBuffer.length) 0,
            x < 2 ^ bw := by
          intro x hx
          rcases List.mem_append.mp hx with h | h
          · exact hbpv x h
          · rw [List.eq_of_mem_replicate h]
            exact pow_pos (by omega) bw
        have hdec := decode_bp_tail s
          (e.bpBuffer ++ List.replicate (8 - e.bpBuffer.length) 0)
          e.bpBuffer.length e.result [] h0 h1
          (by rw [hbwd, hd, hfin]) hsz hp hpadlen hlen1 (by omega)
          (by rw [hbwd]; exact hbwpos) (by rw [hbwd]; exact hpadv)
        have hreq : (pending e).length + ([] : List Nat).length = e.bpBuffer.length := by
          rw [pending_length, hrc]
          simp
        rw [hreq, hdec]
        have hmap : (List.range e.bpBuffer.length).map
              (fun i => (e.bpBuffer ++ List.replicate (8 - e.bpBuffer.length) 0).getD i 0)
            = (List.range e.bpBuffer.length).map (fun i => e.bpBuffer.getD i 0) := by
          apply List.map_congr_left
          intro i hi
          simp only [List.mem_range] at hi
          exact List.getD_append _ _ _ _ hi
        rw [hmap, map_getD_range]
        simp [pending, hrc]
    · have hbp : e.bpBuffer = [] := hor.resolve_left hrc
      have hrcpos : 0 < e.rleCount := Nat.pos_of_ne_zero hrc
      have hmod : 2 * e.rleCount % 2 ^ 32 = 2 * e.rleCount :=
        Nat.mod_eq_of_lt (by omega)
      have hfin : finishWrite e = e.result
          ++ (writeVarintEnc (2 * e.rleCount)
              ++ (leBytes ((bw + 7) / 8) e.rleValue ++ [])) := by
        unfold finishWrite flushRle
        rw [if_pos hrcpos, hmod, hbwid]
        simp
      have hdec := decode_rle_run s e.rleCount e.rleValue 0 e.result [] h0 h1
        (by rw [hbwd, hd, hfin]) hsz hp hrcpos (by omega)
        (by rw [hbwd]; exact hrv hrcpos)
      have hreq : (pending e).length + ([] : List Nat).length = e.rleCount + 0 := by
        rw [pending_length, hbp]
        simp
      rw [hreq, hdec]
      simp [pending, hbp, getBatch]
  | cons w ws ih =>
    intro e s hWF hws hcnt hd hsz hp hbwd h0 h1
    obtain ⟨hbwE, hbwid, hor, hlt8, hbpv, hrv, hrcN, hbw0⟩ := hWF
    have hw : w < 2 ^ bw := hws w (by simp)
    have hws2 : ∀ x ∈ ws, x < 2 ^ bw := fun x hx => hws x (by simp [hx])
    have hlc : (w :: ws).length = ws.length + 1 := rfl
    rw [List.foldl_cons] at hd
    by_cases hA : e.bpBuffer.length = 0
    · -- bp buffer empty on entry: RLE-side branches of WriteValue
      have hbpe : e.bpBuffer = [] := List.length_eq_zero.mp hA
      by_cases hrc : e.rleCount = 0
      · -- fresh start: pending becomes [w]
        have hwv : writeValue e w = { e with rleValue := w, rleCount := 1 } := by
          unfold writeValue
          rw [if_neg (by omega), if_pos hrc]
        rw [hwv] at hd
        have hih := ih { e with rleValue := w, rleCount := 1 } s
          ⟨hbwE, hbwid, Or.inr hbpe, hlt8, hbpv, fun _ => hw, by simp; omega,
            fun hz => hbpe⟩
          hws2 (by simp; omega) hd hsz hp hbwd h0 h1
        have hreq : (pending e).length + (w :: ws).length
            = (pending { e with rleValue := w, rleCount := 1 }).length + ws.length := by
          rw [pending_length, pending_length, hrc]
          simp
          omega
        rw [hreq, hih]
        simp [pending, hrc, hbpe]
      · by_cases hrveq : e.rleValue = w
        · -- same value: extend the run
          have hwv : writeValue e w = { e with rleCount := e.rleCount + 1 } := by
            unfold writeValue
            rw [if_neg (by omega), if_neg hrc, if_pos hrveq]
          rw [hwv] at hd
          have hih := ih { e with rleCount := e.rleCount + 1 } s
            ⟨hbwE, hbwid, Or.inr hbpe, hlt8, hbpv, fun _ => hrv (by omega), by simp; omega,
              fun hz => hbpe⟩
            hws2 (by simp; omega) hd hsz hp hbwd h0 h1
          have hreq : (pending e).length + (w :: ws).length
              = (pending { e with rleCount := e.rleCount + 1 }).length + ws.length := by
            rw [pending_length, pending_length]
            simp
            omega
          rw [hreq, hih]
          simp only [pending, hbpe, List.append_nil]
          rw [List.replicate_succ']
          simp [hrveq]
        · by_cases hge4 : 4 ≤ e.rleCount
          · -- flush the RLE run, then start fresh with w
            have hwv : writeValue e w
                = { flushRle e with rleValue := w, rleCount := 1 } := by
              unfold writeValue
              rw [if_neg (by omega), if_neg hrc, if_neg hrveq, if_pos hge4]
            rw [hwv] at hd
            have hmod : 2 * e.rleCount % 2 ^ 32 = 2 * e.rleCount :=
              Nat.mod_eq_of_lt (by omega)
            have he1res : ({ flushRle e with rleValue := w, rleCount := 1 }).result
                = e.result ++ (writeVarintEnc (2 * e.rleCount)
                    ++ leBytes ((bw + 7) / 8) e.rleValue) := by
              have hmodL : 2 * e.rleCount % 4294967296 = 2 * e.rleCount :=
                Nat.mod_eq_of_lt (by omega)
              simp [flushRle, hmod, hmodL, hbwid]
            obtain ⟨t, ht⟩ := encode_tail ws { flushRle e with rleValue := w, rleCount := 1 }
            have hdata : s.data = e.result ++ (writeVarintEnc (2 * e.rleCount)
                ++ (leBytes ((bw + 7) / 8) e.rleValue ++ t)) := by
              rw [hd, ht, he1res]
              simp
            have hdec := decode_rle_run s e.rleCount e.rleValue (1 + ws.length)
              e.result t h0 h1 (by rw [hbwd]; exact hdata) hsz hp (by omega) (by omega)
              (by rw [hbwd]; exact hrv (by omega))
            have hreq : (pending e).length + (w :: ws).length
                = e.rleCount + (1 + ws.length) := by
              rw [pending_length, hbpe]
              simp
              omega
            rw [hreq, hdec]
            have hih := ih { flushRle e with rleValue := w, rleCount := 1 }
              { s with pos := e.result.length + (writeVarintEnc (2 * e.rleCount)).length
                          + (s.bitWidth + 7) / 8,
                       repeatCount := 0, currentValue := e.rleValue }
              ⟨by simp [flushRle, hbwE], by simp [flushRle, hbwid],
                Or.inr (by simp [flushRle, hbpe]), by simp [flushRle, hbpe],
                by simp [flushRle, hbpe], fun _ => hw, by simp; omega,
                fun hz => by simp [flushRle, hbpe]⟩
              hws2 (by simp; omega) (by simpa using hd) (by simpa using hsz)
              (by rw [he1res, hbwd]; simp; omega) (by simpa using hbwd) rfl
              (by simpa using h1)
            have hreq2 : 1 + ws.length
                = (pending { flushRle e with rleValue := w, rleCount := 1 }).length
                  + ws.length := by
              rw [pending_length]
              simp [flushRle, hbpe]
            rw [hreq2, hih]
            simp [pending, hbpe, flushRle]
          · -- convert the short run to a bit-packed buffer
            have hbwpos : 0 < bw := by
              rcases Nat.eq_zero_or_pos bw with hz | hpos
              · exfalso
                have hv1 : e.rleValue < 1 := by
                  have := hrv (by omega)
                  rwa [hz, pow_zero] at this
                have hw1 : w < 1 := by rwa [hz, pow_zero] at hw
                omega
              · exact hpos
            have hlen : (List.replicate e.rleCount e.rleValue ++ [w]).length
                = e.rleCount + 1 := by simp
            have hwv : writeValue e w
                = { e with bpBuffer := List.replicate e.rleCount e.rleValue ++ [w],
                           rleCount := 0 } := by
              unfold writeValue
              rw [if_neg (by omega), if_neg hrc, if_neg hrveq, if_neg hge4,
                if_neg (by rw [hlen]; omega)]
            rw [hwv] at hd
            have hih := ih
              { e with bpBuffer := List.replicate e.rleCount e.rleValue ++ [w],
                       rleCount := 0 } s
              ⟨hbwE, hbwid, Or.inl rfl, by simp; omega,
                by
                  intro x hx
                  simp only [List.mem_append, List.mem_replicate, List.mem_singleton] at hx
                  rcases hx with ⟨_, rfl⟩ | rfl
                  · exact hrv (by omega)
                  · exact hw,
                by simp, by simp, fun hz => absurd hz (by omega)⟩
              hws2 (by simp; omega) hd hsz hp hbwd h0 h1
            have hreq : (pending e).length + (w :: ws).length
                = (pending { e with bpBuffer := List.replicate e.rleCount e.rleValue ++ [w],
                                    rleCount := 0 }).length + ws.length := by
              rw [pending_length, pending_length, hbpe]
              simp
              omega
            rw [hreq, hih]
            simp [pending, hbpe]
    · -- bp buffer non-empty: append, flushing when the group fills
      have hrc0 : e.rleCount = 0 := by
        rcases hor with h | h
        · exact h
        · exact absurd (by rw [h]; rfl) hA
      have hbwpos : 0 < bw := by
        rcases Nat.eq_zero_or_pos bw with hz | hpos
        · exact absurd (by rw [hbw0 hz]; rfl) hA
        · exact hpos
      by_cases h8 : (e.bpBuffer ++ [w]).length = 8
      · -- the group fills: flush eight values
        have hwv : writeValue e w
            = flushBitPacked { e with bpBuffer := e.bpBuffer ++ [w] } := by
          unfold writeValue
          rw [if_pos hA, if_pos h8]
        rw [hwv] at hd
        have he2res : (flushBitPacked { e with bpBuffer := e.bpBuffer ++ [w] }).result
            = e.result ++ ([3] ++ packValues bw (e.bpBuffer ++ [w])) := by
          simp [flushBitPacked, hbwE, writeVarintEnc_small 3 (by omega)]
        obtain ⟨t, ht⟩ := encode_tail ws (flushBitPacked { e with bpBuffer := e.bpBuffer ++ [w] })
        have hdata : s.data = e.result ++ ([3] ++ (packValues bw (e.bpBuffer ++ [w]) ++ t)) := by
          rw [hd, ht, he2res]
          simp
        have hvals : ∀ x ∈ e.bpBuffer ++ [w], x < 2 ^ bw := by
          intro x hx
          rcases List.mem_append.mp hx with h | h
          · exact hbpv x h
          · simp at h; subst h; exact hw
        have hdec := decode_bp_group s (e.bpBuffer ++ [w]) ws.length e.result t h0 h1
          (by rw [hbwd]; exact hdata) hsz hp h8 (by rw [hbwd]; exact hbwpos)
          (by rw [hbwd]; exact hvals)
        have hreq : (pending e).length + (w :: ws).length = 8 + ws.length := by
          rw [pending_length, hrc0]
          simp only [List.length_append, List.length_cons, List.length_nil] at h8 ⊢
          simp at h8 ⊢
          omega
        rw [hreq, hdec]
        have hih := ih (flushBitPacked { e with bpBuffer := e.bpBuffer ++ [w] })
          { s with pos := e.result.length + 1 + s.bitWidth,
                   literalCount := 0, literalPos := e.result.length + 1,
                   literalBitOffset := 8 * s.bitWidth }
          ⟨by simp [flushBitPacked, hbwE], by simp [flushBitPacked, hbwid],
            Or.inr (by simp [flushBitPacked]), by simp [flushBitPacked],
            by simp [flushBitPacked], by simp [flushBitPacked, hrc0],
            by simp [flushBitPacked, hrc0], fun _ => by simp [flushBitPacked]⟩
          hws2 (by simp [flushBitPacked, hrc0]; omega) (by simpa using hd)
          (by simpa using hsz)
          (by rw [he2res, hbwd]
              simp [packValues_length_eight bw (e.bpBuffer ++ [w]) h8]
              omega)
          (by simpa using hbwd) (by simpa using h0) rfl
        have hreq2 : ws.length
            = (pending (flushBitPacked { e with bpBuffer := e.bpBuffer ++ [w] })).length
              + ws.length := by
          rw [pending_length]
          simp [flushBitPacked, hrc0]
        rw [hreq2, hih]
        simp [pending, flushBitPacked, hrc0]
      · -- the group does not fill: just buffer w
        have hwv : writeValue e w = { e with bpBuffer := e.bpBuffer ++ [w] } := by
          unfold writeValue
          rw [if_pos hA, if_neg h8]
        rw [hwv] at hd
        have hih := ih { e with bpBuffer := e.bpBuffer ++ [w] } s
          ⟨hbwE, hbwid, Or.inl hrc0, by simp at h8 ⊢; omega,
            by
              intro x hx
              rcases List.mem_append.mp hx with h | h
              · exact hbpv x h
              · simp at h; subst h; exact hw,
            hrv, by simp; omega, fun hz => absurd hz (by omega)⟩
          hws2 (by simp [hrc0]; omega) hd hsz hp hbwd h0 h1
        have hreq : (pending e).length + (w :: ws).length
            = (pending { e with bpBuffer := e.bpBuffer ++ [w] }).length + ws.length := by
          rw [pending_length, pending_length]
          simp
          omega
        rw [hreq, hih]
        simp [pending]

/-! ### Enums (src/include/common.hpp) -/

inductive ParquetType where
  | BOOLEAN | INT32 | INT64 | INT96 | FLOAT | DOUBLE | BYTE_ARRAY
  | FIXED_LEN_BYTE_ARRAY
deriving DecidableEq

inductive Encoding where
  | PLAIN | GROUP_VAR_INT | PLAIN_DICTIONARY | RLE | BIT_PACKED
  | DELTA_BINARY_PACKED | DELTA_LENGTH_BYTE_ARRAY | DELTA_BYTE_ARRAY
  | RLE_DICTIONARY | BYTE_STREAM_SPLIT
deriving DecidableEq

inductive CompressionCodec where
  | UNCOMPRESSED | SNAPPY | GZIP | LZO | BROTLI | LZ4 | ZSTD | LZ4_RAW
deriving DecidableEq

inductive PageType where
  | DATA_PAGE | INDEX_PAGE | DICTIONARY_PAGE | DATA_PAGE_V2
deriving DecidableEq

inductive FieldRepetitionType where
  | REQUIRED | OPTIONAL | REPEATED
deriving DecidableEq

inductive ConvertedType where
  | NONE | UTF8 | MAP | MAP_KEY_VALUE | LIST | ENUM | DECIMAL | DATE
  | TIME_MILLIS | TIME_MICROS | TIMESTAMP_MILLIS | TIMESTAMP_MICROS
  | UINT_8 | UINT_16 | UINT_32 | UINT_64 | INT_8 | INT_16 | INT_32 | INT_64
  | JSON | BSON | INTERVAL
deriving DecidableEq

/-- The `Value` struct of common.hpp: `is_null` flag plus a
`std::variant<bool, int32_t, int64_t, float, double, std::string>`.
Floats are carried as their raw IEEE-754 bit patterns (the reader and
writer only ever `memcpy` them); strings are byte lists. -/
inductive Value where
  | null
  | boolV (b : Bool)
  | i32 (v : Int)
  | i64 (v : Int)
  | f32 (bits : Nat)
  | f64 (bits : Nat)
  | str (bytes : List Nat)
deriving DecidableEq

/-- Two's-complement `uint32_t` image of an `int32_t`. -/
def toNat32 (v : Int) : Nat := (v % (2 ^ 32 : Int)).toNat

/-- Two's-complement `uint64_t` image of an `int64_t`. -/
def toNat64 (v : Int) : Nat := (v % (2 ^ 64 : Int)).toNat

/-- An `int32_t` read from a 32-bit little-endian pattern (also the
`static_cast<int32_t>` of a wider unsigned value). -/
def castI32 (u : Nat) : Int :=
  if u % 2 ^ 32 < 2 ^ 31 then ((u % 2 ^ 32 : Nat) : Int)
  else ((u % 2 ^ 32 : Nat) : Int) - 2 ^ 32

/-- An `int64_t` read from a 64-bit little-endian pattern. -/
def castI64 (u : Nat) : Int :=
  if u % 2 ^ 64 < 2 ^ 63 then ((u % 2 ^ 64 : Nat) : Int)
  else ((u % 2 ^ 64 : Nat) : Int) - 2 ^ 64

/-- The shared `while (v > 0) { bw++; v >>= 1; }` bit-width loop of
`ParquetWriter::compute_bit_width`, `ColumnReader::bit_width` and the
inline loops of `encode_data_page` / `encode_dict_data_page`. -/
def bitWidthLoop (m : Nat) : Nat :=
  if h : m = 0 then 0 else 1 + bitWidthLoop (m / 2)
termination_by m
decreasing_by exact Nat.div_lt_self (by omega) (by omega)

/-- `ParquetWriter::compute_bit_width` (minimum 1 for dictionaries). -/
def computeBitWidth (maxValue : Nat) : Nat :=
  if maxValue = 0 then 1 else bitWidthLoop maxValue

/-- `ColumnReader::bit_width` / `StringColumnIterator::bit_width`
(`max_level <= 0` gives 0, levels here are non-negative). -/
def levelBitWidth (maxLevel : Nat) : Nat := bitWidthLoop maxLevel

/-! ### `ParquetWriter` encoding (src/src/writer/parquet_writer.cpp) -/

/-- One value of `ParquetWriter::plain_encode_values`' switch.  A non-null
value whose variant does not match the column type makes `std::get` throw
(`none`); the unsupported types throw too.  Note the BOOLEAN case: the
source emits ONE FULL BYTE per boolean (`result.push_back(b ? 1 : 0)`),
not a packed bit. -/
def plainEncodeValue (t : ParquetType) (v : Value) : Option (List Nat) :=
  match t, v with
  | ParquetType.BOOLEAN, Value.boolV b => some [if b then 1 else 0]
  | ParquetType.INT32, Value.i32 x => some (leBytes 4 (toNat32 x))
  | ParquetType.INT64, Value.i64 x => some (leBytes 8 (toNat64 x))
  | ParquetType.FLOAT, Value.f32 bits => some (leBytes 4 bits)
  | ParquetType.DOUBLE, Value.f64 bits => some (leBytes 8 bits)
  | ParquetType.BYTE_ARRAY, Value.str s => some (leBytes 4 (s.length % 2 ^ 32) ++ s)
  | _, _ => none

/-- `ParquetWriter::plain_encode_values`: concatenates the plain encoding
of every non-null value in order (null values are skipped). -/
def plainEncodeValues (t : ParquetType) : List Value → Option (List Nat)
  | [] => some []
  | v :: rest =>
    if v = Value.null then plainEncodeValues t rest
    else do
      let b ← plainEncodeValue t v
      let bs ← plainEncodeValues t rest
      some (b ++ bs)

/-- Length of the run of leading elements equal to `current`
(the inner `while` of `ParquetWriter::rle_encode_levels`). -/
def runLength (current : Nat) : List Nat → Nat
  | [] => 0
  | x :: rest => if x = current then 1 + runLength current rest else 0

/-- Body of `ParquetWriter::rle_encode_levels`: repeated runs only, header
varint `run_len << 1` (a `uint32_t` shift) then `(bit_width+7)/8`
little-endian value bytes.  `fuel` bounds the loop; each iteration
consumes at least one level, so `levels.length` suffices. -/
def rleLevelsGo (valueBytes : Nat) : Nat → List Nat → List Nat
  | 0, _ => []
  | _, [] => []
  | fuel + 1, x :: rest =>
    let run := 1 + runLength x rest
    writeVarintEnc (2 * run % 2 ^ 32) ++ leBytes valueBytes x
      ++ rleLevelsGo valueBytes fuel (rest.drop (run - 1))

/-- `ParquetWriter::rle_encode_levels`. -/
def rleEncodeLevels (levels : List Nat) (bitWidth : Nat) : List Nat :=
  if levels = [] ∨ bitWidth = 0 then []
  else rleLevelsGo ((bitWidth + 7) / 8) levels.length levels

/-- The value-bearing payload built by `ParquetWriter::encode_data_page`
(everything after the Thrift page header): the 4-byte-length-prefixed RLE
definition levels when `max_def_level > 0`, then the PLAIN-encoded
non-null values. -/
def encodeDataPagePayload (values : List Value) (t : ParquetType)
    (maxDefLevel : Nat) : Option (List Nat) :=
  let defPart : List Nat :=
    if 0 < maxDefLevel then
      let defLevels := values.map (fun v => if v = Value.null then 0 else maxDefLevel)
      let rle := rleEncodeLevels defLevels (bitWidthLoop maxDefLevel)
      leBytes 4 (rle.length % 2 ^ 32) ++ rle
    else []
  (plainEncodeValues t values).map (fun vd => defPart ++ vd)

/-- `ParquetWriter::DictionaryResult`. -/
structure DictionaryResult where
  useDictionary : Bool
  dictValues : List Value
  dictMap : List (Value × Nat)
deriving DecidableEq

/-- `std::map::find` on the model's association list. -/
def dictFind (m : List (Value × Nat)) (v : Value) : Option Nat :=
  (m.find? (fun p => p.1 = v)).map (fun p => p.2)

/-- The scanning loop of `ParquetWriter::analyze_column`: walks the
values, counting non-nulls and assigning each previously unseen non-null
value the next dictionary id (insertion order).  Returns
`(num_non_null, dict_values, dict_map)`. -/
def analyzeGo : List Value → Nat → List Value → List (Value × Nat)
    → Nat × List Value × List (Value × Nat)
  | [], nn, dv, dm => (nn, dv, dm)
  | v :: rest, nn, dv, dm =>
    if v = Value.null then analyzeGo rest nn dv dm
    else
      match dictFind dm v with
      | some _ => analyzeGo rest (nn + 1) dv dm
      | none => analyzeGo rest (nn + 1) (dv ++ [v]) (dm ++ [(v, dv.length)])

/-- `ParquetWriter::analyze_column`: falls back to PLAIN (clearing the
dictionary) when there are no distinct non-null values or more than
`num_non_null / 5` of them. -/
def analyzeColumn (values : List Value) : DictionaryResult :=
  let r := analyzeGo values 0 [] []
  if r.2.1.length = 0 ∨ r.1 / 5 < r.2.1.length then ⟨false, [], []⟩
  else ⟨true, r.2.1, r.2.2⟩

/-! ### `ByteBuffer` (src/include/common.hpp) and the reader
(src/src/reader/column_reader.cpp).  Reads that would run past the end
throw in the source; here they return `none`. -/

structure ByteBuffer where
  data : List Nat
  pos : Nat
deriving DecidableEq

def bbReadBytes (b : ByteBuffer) (n : Nat) : Option (List Nat × ByteBuffer) :=
  if b.pos + n ≤ b.data.length
    then some ((b.data.drop b.pos).take n, { b with pos := b.pos + n })
    else none

def bbReadByte (b : ByteBuffer) : Option (Nat × ByteBuffer) :=
  if b.pos + 1 ≤ b.data.length
    then some (byteAt b.data b.pos, { b with pos := b.pos + 1 })
    else none

/-- `ByteBuffer::read<uint32_t>` (and the bit patterns of the other
4-byte reads). -/
def bbReadU32 (b : ByteBuffer) : Option (Nat × ByteBuffer) :=
  (bbReadBytes b 4).map (fun p => (leVal p.1, p.2))

/-- `ColumnReader::read_plain_value`.  `FIXED_LEN_BYTE_ARRAY` throws.
INT96 is materialised by the source as a formatted string value built
from the twelve raw bytes; the model keeps the raw bytes as the string
content (no claim depends on that text). -/
def readPlainValue (t : ParquetType) (b : ByteBuffer) : Option (Value × ByteBuffer) :=
  match t with
  | ParquetType.BOOLEAN =>
    (bbReadByte b).map (fun p => (Value.boolV (p.1 ≠ 0), p.2))
  | ParquetType.INT32 =>
    (bbReadBytes b 4).map (fun p => (Value.i32 (castI32 (leVal p.1)), p.2))
  | ParquetType.INT64 =>
    (bbReadBytes b 8).map (fun p => (Value.i64 (castI64 (leVal p.1)), p.2))
  | ParquetType.FLOAT =>
    (bbReadBytes b 4).map (fun p => (Value.f32 (leVal p.1), p.2))
  | ParquetType.DOUBLE =>
    (bbReadBytes b 8).map (fun p => (Value.f64 (leVal p.1), p.2))
  | ParquetType.BYTE_ARRAY => do
    let p1 ← bbReadBytes b 4
    let p2 ← bbReadBytes p1.2 (leVal p1.1)
    some (Value.str p2.1, p2.2)
  | ParquetType.INT96 =>
    (bbReadBytes b 12).map (fun p => (Value.str p.1, p.2))
  | ParquetType.FIXED_LEN_BYTE_ARRAY => none

/-- `ColumnReader::read_dictionary_page`: `num_values` plain values. -/
def readDictGo (t : ParquetType) : Nat → ByteBuffer → Option (List Value)
  | 0, _ => some []
  | n + 1, b => do
    let p ← readPlainValue t b
    let rest ← readDictGo t n p.2
    some (p.1 :: rest)

def readDictionaryPage (t : ParquetType) (data : List Nat) (numValues : Nat) :
    Option (List Value) :=
  readDictGo t numValues ⟨data, 0⟩

/-- The dictionary-index materialisation loop of
`ColumnReader::read_data_page` (lines 184–196): null for below-max
definition levels; for non-null slots the next decoded index is looked up
in the dictionary, and an out-of-range index yields `Value.null` instead
of an error, decoding continuing with the following slots. -/
def dictDecodeLoop (maxDef : Nat) (dict : List Value) (indices : List Int) :
    List Nat → Nat → List Value
  | [], _ => []
  | l :: rest, ipos =>
    if l < maxDef then Value.null :: dictDecodeLoop maxDef dict indices rest ipos
    else
      (if 0 ≤ indices.getD ipos 0 ∧ indices.getD ipos 0 < (dict.length : Int)
        then dict.getD (indices.getD ipos 0).toNat Value.null
        else Value.null) :: dictDecodeLoop maxDef dict indices rest (ipos + 1)

/-- The PLAIN BOOLEAN loop of `ColumnReader::read_data_page`: bits are
consumed LSB-first, one bit per non-null slot, reading a fresh byte every
eighth non-null value. -/
def boolLoop (maxDef : Nat) : List Nat → Nat → Nat → ByteBuffer → Option (List Value)
  | [], _, _, _ => some []
  | l :: rest, bitIdx, curByte, b =>
    if l < maxDef then
      (boolLoop maxDef rest bitIdx curByte b).map (fun vs => Value.null :: vs)
    else
      if bitIdx % 8 = 0 then do
        let p ← bbReadByte b
        let bit := p.1 / 2 ^ (bitIdx % 8) % 2
        (boolLoop maxDef rest (bitIdx + 1) p.1 p.2).map
          (fun vs => Value.boolV (bit ≠ 0) :: vs)
      else
        let bit := curByte / 2 ^ (bitIdx % 8) % 2
        (boolLoop maxDef rest (bitIdx + 1) curByte b).map
          (fun vs => Value.boolV (bit ≠ 0) :: vs)

/-- The PLAIN loop of `ColumnReader::read_data_page` for non-boolean
types. -/
def plainLoop (t : ParquetType) (maxDef : Nat) : List Nat → ByteBuffer → Option (List Value)
  | [], _ => some []
  | l :: rest, b =>
    if l < maxDef then
      (plainLoop t maxDef rest b).map (fun vs => Value.null :: vs)
    else do
      let p ← readPlainValue t b
      (plainLoop t maxDef rest p.2).map (fun vs => p.1 :: vs)

/-- An `RleDecoder` constructed on `buf.current()` with an explicit size
(`RleDecoder(ptr, size, bw)`); `size` may be smaller than the bytes that
follow the pointer, exactly as in the source. -/
def mkLevelDecoder (d : List Nat) (size bw : Nat) : RleDecoder :=
  ⟨d, size, 0, bw, 0, 0, 0, 0, 0⟩

/-- The value section of `ColumnReader::read_data_page` (the part after
the level streams): with a dictionary and a dictionary encoding the
indices are RLE-decoded (one byte of bit width first) and materialised
through the dictionary; otherwise PLAIN decoding, bit-packed for
BOOLEAN. -/
def pageValueSection (t : ParquetType) (maxDef : Nat) (enc : Encoding)
    (dict : Option (List Value)) (defLevels : List Nat) (b2 : ByteBuffer) :
    Option (List Value) :=
  let numNonNull := (defLevels.filter (fun l => l = maxDef)).length
  if dict.isSome = true
      ∧ (enc = Encoding.PLAIN_DICTIONARY ∨ enc = Encoding.RLE_DICTIONARY) then do
    let pbw ← bbReadByte b2
    let idxDec := mkLevelDecoder (pbw.2.data.drop pbw.2.pos)
      (pbw.2.data.length - pbw.2.pos) pbw.1
    let indices := ((getBatch idxDec numNonNull).1).map castI32
    pure (dictDecodeLoop maxDef (dict.getD []) indices defLevels 0)
  else
    if t = ParquetType.BOOLEAN then boolLoop maxDef defLevels 0 0 b2
    else plainLoop t maxDef defLevels b2

/-- `ColumnReader::read_data_page`.  Definition levels are read when
`max_def_level > 0` (decoder values stay below `2^15`, so the source's
`int16_t` levels coincide with these naturals); repetition levels are
decoded into a discarded vector, so only their byte length matters here.
The value section follows the page encoding. -/
def readDataPage (t : ParquetType) (maxDef maxRep : Nat) (numValues : Nat)
    (enc : Encoding) (dict : Option (List Value)) (data : List Nat) :
    Option (List Value) := do
  let b0 : ByteBuffer := ⟨data, 0⟩
  let s1 ←
    if 0 < maxDef then do
      let pl ← bbReadU32 b0
      let dec := mkLevelDecoder (pl.2.data.drop pl.2.pos) pl.1 (levelBitWidth maxDef)
      let levels := (getBatch dec numValues).1
      let pb ← bbReadBytes pl.2 pl.1
      pure (levels, pb.2)
    else pure (List.replicate numValues maxDef, b0)
  let b2 ←
    if 0 < maxRep then do
      let pl ← bbReadU32 s1.2
      let pb ← bbReadBytes pl.2 pl.1
      pure pb.2
    else pure s1.2
  pageValueSection t maxDef enc dict s1.1 b2

/-- A page of a column chunk as the `read_all` loop sees it after the
Thrift page-header parse: its kind, declared value count, value encoding
and raw payload bytes. -/
structure PageM where
  ptype : PageType
  numValues : Nat
  encoding : Encoding
  payload : List Nat
deriving DecidableEq

/-- The page walk of `ColumnReader::read_all`: loops while
`values_read < num_values` (meta), consuming a page per step; an at most
single dictionary page populates the chunk dictionary, data pages append
their decoded values and advance `values_read`, other page kinds are
skipped.  Running out of pages before the target is reached would make
the source read garbage past the chunk: `none`. -/
def readAllGo (t : ParquetType) (maxDef maxRep metaNum : Nat) :
    List PageM → Nat → Bool → List Value → List Value → Option (List Value)
  | [], valuesRead, _, _, acc =>
    if metaNum ≤ valuesRead then some acc else none
  | p :: rest, valuesRead, hasDict, dict, acc =>
    if metaNum ≤ valuesRead then some acc
    else
      match p.ptype with
      | PageType.DICTIONARY_PAGE =>
        match readDictionaryPage t p.payload p.numValues with
        | none => none
        | some d => readAllGo t maxDef maxRep metaNum rest valuesRead true d acc
      | PageType.DATA_PAGE =>
        match readDataPage t maxDef maxRep p.numValues p.encoding
            (if hasDict then some dict else none) p.payload with
        | none => none
        | some vs =>
          readAllGo t maxDef maxRep metaNum rest (valuesRead + p.numValues)
            hasDict dict (acc ++ vs)
      | _ => readAllGo t maxDef maxRep metaNum rest valuesRead hasDict dict acc

/-- `ColumnReader::read_all` over the parsed page sequence of a chunk. -/
def readAll (t : ParquetType) (maxDef maxRep metaNum : Nat) (pages : List PageM) :
    Option (List Value) :=
  readAllGo t maxDef maxRep metaNum pages 0 false [] []

/-- Total declared value count of the data pages of a chunk. -/
def sumDataValues (pages : List PageM) : Nat :=
  ((pages.filter (fun p => p.ptype = PageType.DATA_PAGE)).map (fun p => p.numValues)).sum

/-- The dictionary-index loop of `StringColumnIterator::decode_next_page`
(src/src/reader/parquet_reader.cpp lines 420–435): non-null slots whose
decoded index is in range push the dictionary string; an out-of-range
index pushes NOTHING (no placeholder, no error) though the index is still
consumed; null slots are skipped. -/
def iterDictLoop (maxDef : Nat) (dict : List (List Nat)) (indices : List Int) :
    List Nat → Nat → List (List Nat)
  | [], _ => []
  | l :: rest, ipos =>
    if l = maxDef then
      if 0 ≤ indices.getD ipos 0 ∧ indices.getD ipos 0 < (dict.length : Int)
        then dict.getD (indices.getD ipos 0).toNat []
              :: iterDictLoop maxDef dict indices rest (ipos + 1)
        else iterDictLoop maxDef dict indices rest (ipos + 1)
    else iterDictLoop maxDef dict indices rest ipos

/-! ### Schema projection and the column name index
(src/src/reader/parquet_reader.cpp) -/

structure SchemaElement where
  typeOpt : Option ParquetType
  typeLength : Option Int
  repetitionType : Option FieldRepetitionType
  name : String
  numChildren : Option Int
  convertedType : Option ConvertedType
deriving DecidableEq

instance : Inhabited SchemaElement := ⟨⟨none, none, none, "", none, none⟩⟩

structure ColumnInfo where
  name : String
  type : ParquetType
  columnIndex : Nat
  maxDefLevel : Nat
  maxRepLevel : Nat
  repetition : Option FieldRepetitionType
  convertedType : Option ConvertedType
deriving DecidableEq

/-- Whether schema node `idx` is a group (`num_children > 0`). -/
def hasKids (schema : List SchemaElement) (idx : Nat) : Bool :=
  match (schema.getD idx default).numChildren with
  | some k => 0 < k
  | none => false

mutual

/-- `ParquetReader::skip_schema_subtree`, with a fuel bound on the
recursion (the C++ recursion terminates on every well-formed schema; the
fuel below is always sufficient for those). -/
def skipSchemaSubtree (schema : List SchemaElement) : Nat → Nat → Nat
  | 0, idx => idx
  | fuel + 1, idx =>
    skipKidsGo schema fuel
      ((((schema.getD idx default).numChildren).getD 0).toNat) (idx + 1)

def skipKidsGo (schema : List SchemaElement) : Nat → Nat → Nat → Nat
  | 0, _, idx => idx
  | _ + 1, 0, idx => idx
  | fuel + 1, n + 1, idx =>
    if hasKids schema idx
      then skipKidsGo schema fuel n (skipSchemaSubtree schema fuel idx)
      else skipKidsGo schema fuel n (idx + 1)

end

/-- The `child_end` scan inside `ParquetReader::build_columns_recursive`:
`while (remaining > 0 && idx < schema_end)` advancing by whole subtrees. -/
def childEndScan (schema : List SchemaElement) : Nat → Nat → Nat → Nat → Nat
  | 0, _, idx, _ => idx
  | fuel + 1, remaining, idx, schemaEnd =>
    if 0 < remaining ∧ idx < schemaEnd then
      if hasKids schema idx
        then childEndScan schema fuel (remaining - 1)
          (skipSchemaSubtree schema (fuel + 1) idx) schemaEnd
        else childEndScan schema fuel (remaining - 1) (idx + 1) schemaEnd
    else idx

/-- `ParquetReader::build_columns_recursive`: walks `[schemaIdx,
schemaEnd)`, accumulating OPTIONAL/REPEATED level contributions, emitting
a `ColumnInfo` per childless node, numbering leaves left to right. -/
def buildColumnsRecursive (schema : List SchemaElement) :
    Nat → Nat → Nat → Nat → Nat → Nat → List ColumnInfo × Nat
  | 0, _, _, _, _, colIndex => ([], colIndex)
  | fuel + 1, schemaIdx, schemaEnd, defLevel, repLevel, colIndex =>
    if schemaIdx < schemaEnd then
      let elem := schema.getD schemaIdx default
      let myDef := defLevel +
        (match elem.repetitionType with
          | some FieldRepetitionType.OPTIONAL => 1
          | some FieldRepetitionType.REPEATED => 1
          | _ => 0)
      let myRep := repLevel +
        (match elem.repetitionType with
          | some FieldRepetitionType.REPEATED => 1
          | _ => 0)
      if hasKids schema schemaIdx then
        let children := ((elem.numChildren).getD 0).toNat
        let childEnd := childEndScan schema (fuel + 1) children (schemaIdx + 1) schemaEnd
        let inner := buildColumnsRecursive schema fuel (schemaIdx + 1) childEnd
          myDef myRep colIndex
        let outer := buildColumnsRecursive schema fuel childEnd schemaEnd
          defLevel repLevel inner.2
        (inner.1 ++ outer.1, outer.2)
      else
        let info : ColumnInfo :=
          ⟨elem.name, (elem.typeOpt).getD ParquetType.BYTE_ARRAY, colIndex,
            myDef, myRep, elem.repetitionType, elem.convertedType⟩
        let rest := buildColumnsRecursive schema fuel (schemaIdx + 1) schemaEnd
          defLevel repLevel (colIndex + 1)
        (info :: rest.1, rest.2)
    else ([], colIndex)

/-- `ParquetReader::build_column_info` (fuel `2*|schema| + 4` covers every
terminating run of the source). -/
def buildColumnInfo (schema : List SchemaElement) : List ColumnInfo :=
  if schema.isEmpty then []
  else (buildColumnsRecursive schema (2 * schema.length + 4) 1 schema.length 0 0 0).1

/-- `ParquetReader::build_column_index`: inserts `name -> i` for `i`
ascending into `column_name_to_idx_`; `operator[]` assignment overwrites,
modelled by prepending so that lookup sees the most recent insertion. -/
def buildColumnIndex (cols : List ColumnInfo) : List (String × Nat) :=
  cols.enum.foldl (fun m p => (p.2.name, p.1) :: m) []

/-- `ParquetReader::find_column` (`none` for the source's `-1`). -/
def findColumn (cols : List ColumnInfo) (name : String) : Option Nat :=
  (buildColumnIndex cols).lookup name

/-- `ParquetReader::column(size_t)`: exact by-index access, throwing
(`none`) out of range. -/
def columnAt (cols : List ColumnInfo) (idx : Nat) : Option ColumnInfo :=
  if h : idx < cols.length then some (cols.get ⟨idx, h⟩) else none

/-! ### `ThriftWriter` (src/src/writer/thrift_writer.cpp) and the writer
lifecycle (src/src/writer/parquet_writer.cpp). -/

def typeTag : ParquetType → Int
  | ParquetType.BOOLEAN => 0 | ParquetType.INT32 => 1 | ParquetType.INT64 => 2
  | ParquetType.INT96 => 3 | ParquetType.FLOAT => 4 | ParquetType.DOUBLE => 5
  | ParquetType.BYTE_ARRAY => 6 | ParquetType.FIXED_LEN_BYTE_ARRAY => 7

def encodingTag : Encoding → Int
  | Encoding.PLAIN => 0 | Encoding.GROUP_VAR_INT => 1
  | Encoding.PLAIN_DICTIONARY => 2 | Encoding.RLE => 3 | Encoding.BIT_PACKED => 4
  | Encoding.DELTA_BINARY_PACKED => 5 | Encoding.DELTA_LENGTH_BYTE_ARRAY => 6
  | Encoding.DELTA_BYTE_ARRAY => 7 | Encoding.RLE_DICTIONARY => 8
  | Encoding.BYTE_STREAM_SPLIT => 9

def repetitionTag : FieldRepetitionType → Int
  | FieldRepetitionType.REQUIRED => 0 | FieldRepetitionType.OPTIONAL => 1
  | FieldRepetitionType.REPEATED => 2

def convertedTag : ConvertedType → Int
  | ConvertedType.NONE => -1 | ConvertedType.UTF8 => 0 | ConvertedType.MAP => 1
  | ConvertedType.MAP_KEY_VALUE => 2 | ConvertedType.LIST => 3
  | ConvertedType.ENUM => 4 | ConvertedType.DECIMAL => 5 | ConvertedType.DATE => 6
  | ConvertedType.TIME_MILLIS => 7 | ConvertedType.TIME_MICROS => 8
  | ConvertedType.TIMESTAMP_MILLIS => 9 | ConvertedType.TIMESTAMP_MICROS => 10
  | ConvertedType.UINT_8 => 11 | ConvertedType.UINT_16 => 12
  | ConvertedType.UINT_32 => 13 | ConvertedType.UINT_64 => 14
  | ConvertedType.INT_8 => 15 | ConvertedType.INT_16 => 16
  | ConvertedType.INT_32 => 17 | ConvertedType.INT_64 => 18
  | ConvertedType.JSON => 19 | ConvertedType.BSON => 20
  | ConvertedType.INTERVAL => 21

structure ThriftWriter where
  buf : List Nat
  lastFieldId : Int
  stack : List Int
deriving DecidableEq

def twInit : ThriftWriter := ⟨[], 0, []⟩

def twByte (tw : ThriftWriter) (b : Nat) : ThriftWriter :=
  { tw with buf := tw.buf ++ [b % 256] }

def twRawBytes (tw : ThriftWriter) (bs : List Nat) : ThriftWriter :=
  { tw with buf := tw.buf ++ bs }

def twVarint (tw : ThriftWriter) (v : Nat) : ThriftWriter :=
  { tw with buf := tw.buf ++ writeVarintEnc v }

/-- `(value << 1) ^ (value >> 63)` on `int64_t` (two's complement):
`2v` for non-negative `v`, `-2v - 1` for negative `v`. -/
def zigzag64 (v : Int) : Nat :=
  if 0 ≤ v then (2 * v).toNat else (-(2 * v) - 1).toNat

def twZigzag (tw : ThriftWriter) (v : Int) : ThriftWriter :=
  twVarint tw (zigzag64 v)

def twField (tw : ThriftWriter) (fid : Int) (ty : Nat) : ThriftWriter :=
  let delta := fid - tw.lastFieldId
  if 0 < delta ∧ delta ≤ 15 then
    { twByte tw (delta.toNat * 16 + ty) with lastFieldId := fid }
  else
    { twZigzag (twByte tw ty) fid with lastFieldId := fid }

def twI32 (tw : ThriftWriter) (fid : Int) (v : Int) : ThriftWriter :=
  twZigzag (twField tw fid 5) v

def twI64 (tw : ThriftWriter) (fid : Int) (v : Int) : ThriftWriter :=
  twZigzag (twField tw fid 6) v

def twString (tw : ThriftWriter) (fid : Int) (s : List Nat) : ThriftWriter :=
  twRawBytes (twVarint (twField tw fid 8) s.length) s

def twListBegin (tw : ThriftWriter) (fid : Int) (elemType : Nat) (count : Nat) :
    ThriftWriter :=
  let tw1 := twField tw fid 9
  if count < 15 then twByte tw1 (count * 16 + elemType)
  else twVarint (twByte tw1 (240 + elemType)) count

def twStop (tw : ThriftWriter) : ThriftWriter := twByte tw 0

def twStructBegin (tw : ThriftWriter) (fid : Int) : ThriftWriter :=
  let tw1 := twField tw fid 12
  { tw1 with stack := tw1.lastFieldId :: tw1.stack, lastFieldId := 0 }

def twStructEnd (tw : ThriftWriter) : ThriftWriter :=
  let tw1 := twStop tw
  { tw1 with lastFieldId := tw1.stack.headD 0, stack := tw1.stack.tail }

def twPushFieldState (tw : ThriftWriter) : ThriftWriter :=
  { tw with stack := tw.lastFieldId :: tw.stack, lastFieldId := 0 }

def twPopFieldState (tw : ThriftWriter) : ThriftWriter :=
  { tw with lastFieldId := tw.stack.headD 0, stack := tw.stack.tail }

def twZigzagRaw (tw : ThriftWriter) (v : Int) : ThriftWriter := twZigzag tw v

def twVarintRaw (tw : ThriftWriter) (v : Nat) : ThriftWriter := twVarint tw v

/-- `ColumnSpec` (src/include/writer/parquet_writer.hpp); names are byte
strings. -/
structure ColumnSpec where
  name : List Nat
  type : ParquetType
  repetition : FieldRepetitionType
  convertedType : Option ConvertedType
  scale : Option Int
  precision : Option Int
deriving DecidableEq

structure ColumnChunkMeta where
  dataPageOffset : Int
  totalUncompressedSize : Int
  totalCompressedSize : Int
  numValues : Int
  dictionaryPageOffset : Int
  encoding : Encoding
deriving DecidableEq

structure RowGroupMeta where
  numRows : Int
  columns : List ColumnChunkMeta
deriving DecidableEq

/-- The writer's state: the bytes written to the file stream so far, the
schema given at construction, accumulated row-group metadata, the running
row total and the `closed_` flag. -/
structure WriterState where
  fileBytes : List Nat
  columns : List ColumnSpec
  rowGroups : List RowGroupMeta
  totalRows : Int
  closed : Bool
deriving DecidableEq

/-- The bytes "schema". -/
def schemaRootName : List Nat := [115, 99, 104, 101, 109, 97]

/-- One `SchemaElement` of the footer schema list (body of the
`for (col : columns_)` loop in `ParquetWriter::close`). -/
def footerSchemaElement (tw : ThriftWriter) (col : ColumnSpec) : ThriftWriter :=
  let tw := twPushFieldState tw
  let tw := twI32 tw 1 (typeTag col.type)
  let tw := twI32 tw 3 (repetitionTag col.repetition)
  let tw := twString tw 4 col.name
  let tw := match col.convertedType with
    | some ct => if ct ≠ ConvertedType.NONE then twI32 tw 6 (convertedTag ct) else tw
    | none => tw
  let tw := match col.scale with
    | some sc => twI32 tw 7 sc
    | none => tw
  let tw := match col.precision with
    | some pr => twI32 tw 8 pr
    | none => tw
  let tw := twStop tw
  twPopFieldState tw

/-- One `ColumnChunk` of a footer row group. -/
def footerColumnChunk (tw : ThriftWriter) (cm : ColumnChunkMeta)
    (colSpec : ColumnSpec) : ThriftWriter :=
  let tw := twPushFieldState tw
  let fileOffset := if 0 ≤ cm.dictionaryPageOffset
    then cm.dictionaryPageOffset else cm.dataPageOffset
  let tw := twI64 tw 2 fileOffset
  let tw := twStructBegin tw 3
  let tw := twI32 tw 1 (typeTag colSpec.type)
  let tw := if cm.encoding = Encoding.RLE_DICTIONARY then
      let tw := twListBegin tw 2 5 2
      let tw := twZigzagRaw tw (encodingTag Encoding.PLAIN)
      twZigzagRaw tw (encodingTag Encoding.RLE_DICTIONARY)
    else
      let tw := twListBegin tw 2 5 1
      twZigzagRaw tw (encodingTag Encoding.PLAIN)
  let tw := twListBegin tw 3 8 1
  let tw := twVarintRaw tw colSpec.name.length
  let tw := twRawBytes tw colSpec.name
  let tw := twI32 tw 4 0
  let tw := twI64 tw 5 cm.numValues
  let tw := twI64 tw 6 cm.totalUncompressedSize
  let tw := twI64 tw 7 cm.totalCompressedSize
  let tw := twI64 tw 9 cm.dataPageOffset
  let tw := if 0 ≤ cm.dictionaryPageOffset
    then twI64 tw 11 cm.dictionaryPageOffset else tw
  let tw := twStructEnd tw
  let tw := twStop tw
  twPopFieldState tw

/-- One `RowGroup` of the footer. -/
def footerRowGroup (columns : List ColumnSpec) (tw : ThriftWriter)
    (rg : RowGroupMeta) : ThriftWriter :=
  let tw := twPushFieldState tw
  let tw := twListBegin tw 1 12 rg.columns.length
  let tw := (rg.columns.zip columns).foldl
    (fun tw p => footerColumnChunk tw p.1 p.2) tw
  let rgTotal := (rg.columns.map (fun cm => cm.totalCompressedSize)).sum
  let tw := twI64 tw 2 rgTotal
  let tw := twI64 tw 3 rg.numRows
  let tw := twStop tw
  twPopFieldState tw

/-- The Thrift `FileMetaData` bytes assembled by `ParquetWriter::close`. -/
def footerBytes (s : WriterState) : List Nat :=
  let tw := twInit
  let tw := twI32 tw 1 2
  let tw := twListBegin tw 2 12 (1 + s.columns.length)
  let tw := twPushFieldState tw
  let tw := twString tw 4 schemaRootName
  let tw := twI32 tw 5 (s.columns.length : Int)
  let tw := twStop tw
  let tw := twPopFieldState tw
  let tw := s.columns.foldl footerSchemaElement tw
  let tw := twI64 tw 3 s.totalRows
  let tw := twListBegin tw 4 12 s.rowGroups.length
  let tw := s.rowGroups.foldl (footerRowGroup s.columns) tw
  let tw := twStop tw
  tw.buf

/-- `ParquetWriter::close`: a no-op when already closed; otherwise
appends the footer, its little-endian 32-bit length and the trailing
`PAR1` magic, and marks the writer closed. -/
def writerClose (s : WriterState) : WriterState :=
  if s.closed then s
  else
    let ftr := footerBytes s
    { s with
      fileBytes := s.fileBytes ++ ftr ++ leBytes 4 (ftr.length % 2 ^ 32)
        ++ [80, 65, 82, 49],
      closed := true }

/-- `ParquetWriter::~ParquetWriter`: `if (!closed_) close();`. -/
def writerDestructor (s : WriterState) : WriterState :=
  if ¬ s.closed then writerClose s else s

/-! ## Helper lemmas about the reader loops -/

/-- The dictionary materialisation loop emits exactly one value (possibly
`null`) per definition level. -/
lemma dictDecodeLoop_length (maxDef : Nat) (dict : List Value) (indices : List Int) :
    ∀ (levels : List Nat) (ipos : Nat),
      (dictDecodeLoop maxDef dict indices levels ipos).length = levels.length := by
  intro levels
  induction levels with
  | nil => intro ipos; rfl
  | cons l rest ih =>
    intro ipos
    by_cases h : l < maxDef
    · simp [dictDecodeLoop, h, ih]
    · simp [dictDecodeLoop, h, ih]

/-- The PLAIN BOOLEAN loop emits one value per definition level. -/
lemma boolLoop_length (maxDef : Nat) :
    ∀ (levels : List Nat) (bitIdx curByte : Nat) (b : ByteBuffer) (vs : List Value),
      boolLoop maxDef levels bitIdx curByte b = some vs →
      vs.length = levels.length := by
  intro levels
  induction levels with
  | nil =>
    intro bitIdx curByte b vs h
    simp only [boolLoop, Option.some.injEq] at h
    simp [← h]
  | cons l rest ih =>
    intro bitIdx curByte b vs h
    by_cases hl : l < maxDef
    · rw [boolLoop, if_pos hl] at h
      rcases Option.map_eq_some'.mp h with ⟨ws, hws, rfl⟩
      simp [ih _ _ _ _ hws]
    · rw [boolLoop, if_neg hl] at h
      by_cases hb : bitIdx % 8 = 0
      · rw [if_pos hb] at h
        simp only [Option.bind_eq_bind, Option.bind_eq_some] at h
        obtain ⟨p, hp, h⟩ := h
        rcases Option.map_eq_some'.mp h with ⟨ws, hws, rfl⟩
        simp [ih _ _ _ _ hws]
      · rw [if_neg hb] at h
        rcases Option.map_eq_some'.mp h with ⟨ws, hws, rfl⟩
        simp [ih _ _ _ _ hws]

/-- The PLAIN loop emits one value per definition level. -/
lemma plainLoop_length (t : ParquetType) (maxDef : Nat) :
    ∀ (levels : List Nat) (b : ByteBuffer) (vs : List Value),
      plainLoop t maxDef levels b = some vs → vs.length = levels.length := by
  intro levels
  induction levels with
  | nil =>
    intro b vs h
    simp only [plainLoop, Option.some.injEq] at h
    simp [← h]
  | cons l rest ih =>
    intro b vs h
    by_cases hl : l < maxDef
    · rw [plainLoop, if_pos hl] at h
      rcases Option.map_eq_some'.mp h with ⟨ws, hws, rfl⟩
      simp [ih _ _ hws]
    · rw [plainLoop, if_neg hl] at h
      simp only [Option.bind_eq_bind, Option.bind_eq_some] at h
      obtain ⟨p, hp, h⟩ := h
      rcases Option.map_eq_some'.mp h with ⟨ws, hws, rfl⟩
      simp [ih _ _ hws]

/-- The value section yields one value per definition level. -/
lemma pageValueSection_length (t : ParquetType) (maxDef : Nat) (enc : Encoding)
    (dict : Option (List Value)) (defLevels : List Nat) (b2 : ByteBuffer)
    (vs : List Value) (h : pageValueSection t maxDef enc dict defLevels b2 = some vs) :
    vs.length = defLevels.length := by
  simp only [pageValueSection] at h
  split at h
  · simp only [Option.bind_eq_bind, Option.pure_def, Option.bind_eq_some,
      Option.some.injEq] at h
    obtain ⟨pbw, hpbw, h⟩ := h
    rw [← h, dictDecodeLoop_length]
  · split at h
    · exact boolLoop_length maxDef _ _ _ _ _ h
    · exact plainLoop_length t maxDef _ _ _ h

/-- `read_data_page` returns exactly `num_values` values whenever it
returns at all. -/
lemma readDataPage_length (t : ParquetType) (maxDef maxRep numValues : Nat)
    (enc : Encoding) (dict : Option (List Value)) (data : List Nat)
    (vs : List Value)
    (h : readDataPage t maxDef maxRep numValues enc dict data = some vs) :
    vs.length = numValues := by
  rw [readDataPage] at h
  split at h
  · simp only [Option.bind_eq_bind, Option.pure_def, Option.some_bind,
      Option.bind_eq_some] at h
    obtain ⟨pl, hpl, pb, hpb, h⟩ := h
    split at h
    · simp only [Option.bind_eq_some] at h
      obtain ⟨pl2, hpl2, pb2, hpb2, h⟩ := h
      rw [pageValueSection_length t maxDef enc dict _ _ vs h, getBatch_fst_length]
    · rw [pageValueSection_length t maxDef enc dict _ _ vs h, getBatch_fst_length]
  · simp only [Option.bind_eq_bind, Option.pure_def, Option.some_bind,
      Option.bind_eq_some] at h
    split at h
    · simp only [Option.bind_eq_some] at h
      obtain ⟨pl2, hpl2, pb2, hpb2, h⟩ := h
      rw [pageValueSection_length t maxDef enc dict _ _ vs h, List.length_replicate]
    · rw [pageValueSection_length t maxDef enc dict _ _ vs h, List.length_replicate]

/-- Splitting the declared data-page value total at the head page. -/
lemma sumDataValues_cons (p : PageM) (rest : List PageM) :
    sumDataValues (p :: rest)
      = (if p.ptype = PageType.DATA_PAGE then p.numValues else 0)
        + sumDataValues rest := by
  by_cases hp : p.ptype = PageType.DATA_PAGE <;>
    simp [sumDataValues, List.filter_cons, hp]

/-- Invariant of the `read_all` page walk: values decoded so far plus the
declared totals of the remaining data pages account for the chunk's
metadata count. -/
lemma readAllGo_length (t : ParquetType) (maxDef maxRep metaNum : Nat) :
    ∀ (pages : List PageM) (valuesRead : Nat) (hasDict : Bool)
      (dict acc out : List Value),
      acc.length = valuesRead →
      valuesRead + sumDataValues pages = metaNum →
      readAllGo t maxDef maxRep metaNum pages valuesRead hasDict dict acc = some out →
      out.length = metaNum := by
  intro pages
  induction pages with
  | nil =>
    intro vr hd dict acc out hacc hsum h
    rw [readAllGo] at h
    split at h
    · simp only [Option.some.injEq] at h
      have hz : sumDataValues ([] : List PageM) = 0 := rfl
      rw [← h, hacc]
      omega
    · exact absurd h (by simp)
  | cons p rest ih =>
    intro vr hd dict acc out hacc hsum h
    rw [readAllGo] at h
    rw [sumDataValues_cons] at hsum
    split at h
    · simp only [Option.some.injEq] at h
      rw [← h, hacc]
      omega
    · split at h
      · split at h
        · exact absurd h (by simp)
        · refine ih vr true _ acc out hacc ?_ h
          rename_i x1 hpt x2 d hd2
          rw [if_neg (by rw [hpt]; decide)] at hsum
          omega
      · split at h
        · exact absurd h (by simp)
        · rename_i x1 hpt x2 vs hvs
          refine ih (vr + p.numValues) hd dict (acc ++ vs) out ?_ ?_ h
          · rw [List.length_append, hacc, readDataPage_length _ _ _ _ _ _ _ _ hvs]
          · rw [if_pos hpt] at hsum
            omega
      · refine ih vr hd dict acc out hacc ?_ h
        rename_i hpt1 hpt2
        rw [if_neg hpt2] at hsum
        omega

/-- Number of non-null slots (definition level not below `max_def`)
among the first `i` definition levels: the position in the index stream
that the reader's dictionary loop has reached at slot `i`. -/
def nnBefore (maxDef : Nat) : List Nat → Nat → Nat
  | _, 0 => 0
  | [], _ + 1 => 0
  | l :: rest, i + 1 => (if l < maxDef then 0 else 1) + nnBefore maxDef rest i

/-- Number of non-null slots whose consumed dictionary index is out of
range for a dictionary of `dictLen` entries — the slots the string
iterator's loop silently drops. -/
def oorCount (maxDef dictLen : Nat) (indices : List Int) : List Nat → Nat → Nat
  | [], _ => 0
  | l :: rest, ipos =>
    if l = maxDef then
      (if 0 ≤ indices.getD ipos 0 ∧ indices.getD ipos 0 < (dictLen : Int)
        then 0 else 1)
        + oorCount maxDef dictLen indices rest (ipos + 1)
    else oorCount maxDef dictLen indices rest ipos

/-- Appending a column prepends its index entry, so `lookup` sees the
later insertion first — exactly `operator[]`'s overwrite. -/
lemma buildColumnIndex_append (cols : List ColumnInfo) (c : ColumnInfo) :
    buildColumnIndex (cols ++ [c])
      = (c.name, cols.length) :: buildColumnIndex cols := by
  simp only [buildColumnIndex, List.enum_append, List.foldl_append]
  simp [List.enumFrom]

/-- Membership form of `std::map::find` on the model's association
list. -/
lemma dictFind_isSome (m : List (Value × Nat)) (v : Value) :
    (dictFind m v).isSome = true ↔ ∃ n, (v, n) ∈ m := by
  rw [dictFind, Option.isSome_map', List.find?_isSome]
  constructor
  · rintro ⟨p, hp, hpv⟩
    refine ⟨p.2, ?_⟩
    have hv : p.1 = v := by simpa using hpv
    rw [← hv]
    exact hp
  · rintro ⟨n, hn⟩
    exact ⟨(v, n), hn, by simp⟩

/-- Invariant of `analyze_column`'s scan: the running count adds one per
non-null value, the dictionary value list stays duplicate-free, its
members are the starting members plus the non-null values seen, and the
map's keys are exactly the value list. -/
lemma analyzeGo_spec :
    ∀ (vs : List Value) (nn : Nat) (dv : List Value) (dm : List (Value × Nat)),
      (∀ u, (∃ n, (u, n) ∈ dm) ↔ u ∈ dv) →
      dv.Nodup →
      (analyzeGo vs nn dv dm).1
          = nn + (vs.filter (fun v => v ≠ Value.null)).length
      ∧ (analyzeGo vs nn dv dm).2.1.Nodup
      ∧ (analyzeGo vs nn dv dm).2.1.toFinset
          = dv.toFinset ∪ (vs.filter (fun v => v ≠ Value.null)).toFinset
      ∧ (∀ u, (∃ n, (u, n) ∈ (analyzeGo vs nn dv dm).2.2) ↔
          u ∈ (analyzeGo vs nn dv dm).2.1) := by
  intro vs
  induction vs with
  | nil =>
    intro nn dv dm hinv hnd
    exact ⟨by simp [analyzeGo], hnd, by simp [analyzeGo], hinv⟩
  | cons v rest ih =>
    intro nn dv dm hinv hnd
    by_cases hv : v = Value.null
    · subst hv
      have heq : analyzeGo (Value.null :: rest) nn dv dm
          = analyzeGo rest nn dv dm := by
        simp [analyzeGo]
      have hf : (Value.null :: rest).filter (fun v => v ≠ Value.null)
          = rest.filter (fun v => v ≠ Value.null) := by simp
      rw [heq, hf]
      exact ih nn dv dm hinv hnd
    · rw [show (v :: rest).filter (fun v => v ≠ Value.null)
          = v :: rest.filter (fun v => v ≠ Value.null) from by
        simp [List.filter_cons, hv]]
      rcases hf : dictFind dm v with _ | k
      · have hvnot : v ∉ dv := by
          intro hmem
          rcases (hinv v).mpr hmem with ⟨n, hn⟩
          have hs : (dictFind dm v).isSome = true :=
            (dictFind_isSome dm v).mpr ⟨n, hn⟩
          rw [hf] at hs
          exact absurd hs (by simp)
        have heq : analyzeGo (v :: rest) nn dv dm
            = analyzeGo rest (nn + 1) (dv ++ [v]) (dm ++ [(v, dv.length)]) := by
          simp [analyzeGo, hv, hf]
        rw [heq]
        have hinv2 : ∀ u, (∃ n, (u, n) ∈ dm ++ [(v, dv.length)])
            ↔ u ∈ dv ++ [v] := by
          intro u
          simp only [List.mem_append, List.mem_singleton]
          constructor
          · rintro ⟨n, hn | hn⟩
            · exact Or.inl ((hinv u).mp ⟨n, hn⟩)
            · exact Or.inr (congrArg Prod.fst hn)
          · rintro (hu | rfl)
            · rcases (hinv u).mpr hu with ⟨n, hn⟩
              exact ⟨n, Or.inl hn⟩
            · exact ⟨dv.length, Or.inr rfl⟩
        have hnd2 : (dv ++ [v]).Nodup := by
          rw [List.nodup_append]
          refine ⟨hnd, List.nodup_singleton v, ?_⟩
          intro a ha hb
          rw [List.mem_singleton] at hb
          subst hb
          exact hvnot ha
        obtain ⟨h1, h2, h3, h4⟩ :=
          ih (nn + 1) (dv ++ [v]) (dm ++ [(v, dv.length)]) hinv2 hnd2
        refine ⟨?_, h2, ?_, h4⟩
        · rw [h1, List.length_cons]
          omega
        · rw [h3, List.toFinset_append]
          ext x
          simp only [Finset.mem_union, List.mem_toFinset, List.mem_singleton,
            List.mem_cons]
          tauto
      · have hvmem : v ∈ dv := by
          refine (hinv v).mp ?_
          refine (dictFind_isSome dm v).mp ?_
          rw [hf]
          rfl
        have heq : analyzeGo (v :: rest) nn dv dm
            = analyzeGo rest (nn + 1) dv dm := by
          simp [analyzeGo, hv, hf]
        rw [heq]
        obtain ⟨h1, h2, h3, h4⟩ := ih (nn + 1) dv dm hinv hnd
        refine ⟨?_, h2, ?_, h4⟩
        · rw [h1, List.length_cons]
          omega
        · rw [h3]
          ext x
          simp only [Finset.mem_union, List.mem_toFinset, List.mem_cons]
          constructor
          · rintro (hx | hx)
            · exact Or.inl hx
            · exact Or.inr (Or.inr hx)
          · rintro (hx | rfl | hx)
            · exact Or.inl hx
            · exact Or.inl hvmem
            · exact Or.inr hx

/-- A flat schema whose two leaves share the name "x": root with two
children, both required INT32 leaves. -/
def dupSchema : List SchemaElement :=
  [⟨none, none, none, "schema", some 2, none⟩,
    ⟨some ParquetType.INT32, none, some FieldRepetitionType.REQUIRED, "x",
      none, none⟩,
    ⟨some ParquetType.INT32, none, some FieldRepetitionType.REQUIRED, "x",
      none, none⟩]

/-! ## Claims -/

/-- C3: RLE/bit-pack round-trip — for every `bit_width` in `[0, 32]` and
every finite sequence `xs` over `[0, 2^bit_width)` (of any length a
`uint32_t` run counter can describe), feeding each element to
`RleBpEncoder::WriteValue`, calling `FinishWrite`, and decoding the
produced bytes with `RleDecoder::get_batch` requesting exactly `|xs|`
values returns exactly `xs`. -/
theorem claim_C3_rle_roundtrip (bw : Nat) (xs : List Nat) (hbw : bw ≤ 32)
    (hxs : ∀ x ∈ xs, x < 2 ^ bw) (hlen : xs.length < 2 ^ 31) :
    rleDecode bw (rleEncode bw xs) xs.length = xs := by
  have h := enc_dec_main bw xs.length hlen xs (initEnc bw)
    (freshDec (rleEncode bw xs) bw 0)
    ⟨rfl, rfl, Or.inl rfl, by simp [initEnc], by simp [initEnc],
      by simp [initEnc], by simp [initEnc], fun _ => rfl⟩
    hxs (by simp [initEnc]) rfl rfl rfl rfl rfl rfl
  simpa [rleDecode, decodeFrom, pending, initEnc] using h

/-- Witness for C3 at `bit_width = 3`. -/
theorem claim_C3_witness :
    rleDecode 3 (rleEncode 3 [1, 5, 5, 5, 5, 5, 2, 3, 4, 0, 7, 7])
        [1, 5, 5, 5, 5, 5, 2, 3, 4, 0, 7, 7].length
      = [1, 5, 5, 5, 5, 5, 2, 3, 4, 0, 7, 7] :=
  claim_C3_rle_roundtrip 3 [1, 5, 5, 5, 5, 5, 2, 3, 4, 0, 7, 7]
    (by norm_num) (by decide) (by norm_num)

/-- C4 counterexample: a truncated RLE stream (a repeated run announcing
two values, then nothing) decoded for five values does NOT fail — the
source's `get_batch` pads the remaining three slots with zeros and
returns normally, so exhaustion is silently swallowed rather than
surfaced as a `MalformedPayload` error (no error path exists in
`RleDecoder`). -/
theorem claim_C4_counterexample : rleDecode 1 [4, 1] 5 = [1, 1, 0, 0, 0] := by
  decide

/-- C4 amended: when an RLE/bit-pack stream is exhausted (position at or
past its size with no buffered run), `get_batch` zero-fills every
remaining requested value and returns normally; no error is raised or
propagated to the caller. -/
theorem claim_C4_amended (s : RleDecoder) (n : Nat) (hpos : s.size ≤ s.pos)
    (h0 : s.repeatCount = 0) (h1 : s.literalCount = 0) :
    (getBatch s n).1 = List.replicate n 0 := by
  cases n with
  | zero => simp [getBatch]
  | succ m =>
    rw [getBatch, if_pos ⟨h0, h1⟩]
    unfold nextCounts
    rw [if_pos hpos]

/-- Witness for C4 amended: an empty stream zero-fills three values. -/
theorem claim_C4_witness :
    (getBatch (freshDec ([] : List Nat) 1 0) 3).1 = List.replicate 3 0 :=
  claim_C4_amended (freshDec ([] : List Nat) 1 0) 3 (by decide) rfl rfl

/-- C2: the claim expects the PLAIN BOOLEAN page payload for
`[true, false, true, true, false, false, false, false]` to be the single
bit-packed byte `0b00001101 = 13`; the writer's `plain_encode_values`
instead emits one full byte per boolean (`b ? 1 : 0`), eight bytes here,
contradicting the reader's bit-packed BOOLEAN decoding. -/
theorem claim_C2_boolean_bytes :
    plainEncodeValues ParquetType.BOOLEAN
        [Value.boolV true, Value.boolV false, Value.boolV true, Value.boolV true,
          Value.boolV false, Value.boolV false, Value.boolV false, Value.boolV false]
      = some [1, 0, 1, 1, 0, 0, 0, 0]
    ∧ some [1, 0, 1, 1, 0, 0, 0, 0] ≠ some [13] := by
  exact ⟨rfl, by decide⟩

/-- C1: the write/read round-trip is broken for BOOLEAN columns.  For the
schema `{REQUIRED BOOLEAN b}` and values `[true, true]`, the writer's
data-page payload is the two bytes `[1, 1]` (one byte per boolean), while
the reader decodes PLAIN BOOLEAN pages bit-packed, so it reads both
values from the first byte `0x01` and returns `[true, false]`. -/
theorem claim_C1_boolean_roundtrip_bug :
    encodeDataPagePayload [Value.boolV true, Value.boolV true]
        ParquetType.BOOLEAN 0 = some [1, 1]
    ∧ readDataPage ParquetType.BOOLEAN 0 0 2 Encoding.PLAIN none [1, 1]
      = some [Value.boolV true, Value.boolV false]
    ∧ some [Value.boolV true, Value.boolV false]
      ≠ some [Value.boolV true, Value.boolV true] := by
  refine ⟨rfl, by decide, by decide⟩

/-- C9: `ParquetWriter::close` is idempotent — a second `close` is a
no-op leaving the writer state (including the produced file bytes)
unchanged — and the destructor closes implicitly, so destroying any
writer yields exactly the state `close` produces, with the footer
written. -/
theorem claim_C9_close_idempotent (s : WriterState) :
    writerClose (writerClose s) = writerClose s
    ∧ writerDestructor s = writerClose s
    ∧ (writerDestructor s).closed = true := by
  by_cases h : s.closed
  · simp [writerClose, writerDestructor, h]
  · refine ⟨?_, ?_, ?_⟩ <;> simp [writerClose, writerDestructor, h]

/-- C8: when the data pages of a column chunk together declare exactly
the chunk metadata's value count, a successful `read_all` returns
exactly that many values (nulls included). -/
theorem claim_C8_readall_count (t : ParquetType) (maxDef maxRep metaNum : Nat)
    (pages : List PageM) (out : List Value)
    (hsum : sumDataValues pages = metaNum)
    (h : readAll t maxDef maxRep metaNum pages = some out) :
    out.length = metaNum :=
  readAllGo_length t maxDef maxRep metaNum pages 0 false [] [] out rfl
    (by simpa using hsum) h

/-- Witness for C8: a single PLAIN INT32 data page of two values. -/
theorem claim_C8_witness : ([Value.i32 1, Value.i32 2] : List Value).length = 2 :=
  claim_C8_readall_count ParquetType.INT32 0 0 2
    [⟨PageType.DATA_PAGE, 2, Encoding.PLAIN, [1, 0, 0, 0, 2, 0, 0, 0]⟩]
    [Value.i32 1, Value.i32 2] rfl (by decide)

/-- C7: corrected.  The amended statement of the tolerated-corruption
behaviour of `ColumnReader::read_data_page`'s dictionary branch: the
loop emits one value per definition level, and a non-null slot whose
consumed index is out of range for the dictionary becomes `Value.null`
— no error is raised and decoding continues with the later slots.  (The
original claim's "this is the only corruption that does not abort" is
refuted by `claim_C7_counterexample`.) -/
theorem claim_C7_amended (maxDef : Nat) (dict : List Value) (indices : List Int) :
    ∀ (levels : List Nat) (ipos : Nat),
    (dictDecodeLoop maxDef dict indices levels ipos).length = levels.length
    ∧ ∀ i, i < levels.length → ¬ levels.getD i 0 < maxDef →
      ¬ (0 ≤ indices.getD (ipos + nnBefore maxDef levels i) 0
          ∧ indices.getD (ipos + nnBefore maxDef levels i) 0 < (dict.length : Int)) →
      (dictDecodeLoop maxDef dict indices levels ipos).getD i Value.null
        = Value.null := by
  intro levels
  induction levels with
  | nil =>
    intro ipos
    exact ⟨rfl, fun i hi => absurd hi (by simp)⟩
  | cons l rest ih =>
    intro ipos
    by_cases h : l < maxDef
    · refine ⟨by simp [dictDecodeLoop, h, (ih ipos).1], ?_⟩
      intro i hi hnn hoor
      cases i with
      | zero => exact absurd h hnn
      | succ j =>
        have harith : ipos + nnBefore maxDef (l :: rest) (j + 1)
            = ipos + nnBefore maxDef rest j := by
          simp only [nnBefore, if_pos h]
          omega
        rw [harith] at hoor
        simp only [dictDecodeLoop, if_pos h, List.getD_cons_succ]
        exact (ih ipos).2 j (by simp only [List.length_cons] at hi; omega)
          (by simpa using hnn) hoor
    · refine ⟨by simp [dictDecodeLoop, h, (ih (ipos + 1)).1], ?_⟩
      intro i hi hnn hoor
      cases i with
      | zero =>
        have hz : ipos + nnBefore maxDef (l :: rest) 0 = ipos := rfl
        rw [hz] at hoor
        simp only [dictDecodeLoop, if_neg h, List.getD_cons_zero]
        exact if_neg hoor
      | succ j =>
        have harith : ipos + nnBefore maxDef (l :: rest) (j + 1)
            = ipos + 1 + nnBefore maxDef rest j := by
          simp only [nnBefore, if_neg h]
          omega
        rw [harith] at hoor
        simp only [dictDecodeLoop, if_neg h, List.getD_cons_succ]
        exact (ih (ipos + 1)).2 j (by simp only [List.length_cons] at hi; omega)
          (by simpa using hnn) hoor

/-- Witness for C7's amended statement: a one-entry dictionary, the non-null
slot's index 5 out of range, yielding null. -/
theorem claim_C7_witness :
    (dictDecodeLoop 1 [Value.i32 7] [5] [1] 0).getD 0 Value.null = Value.null :=
  (claim_C7_amended 1 [Value.i32 7] [5] [1] 0).2 0 (by decide) (by decide) (by decide)

/-- C7 counterexample to the original claim's "only corruption that does
not abort": a data page for an INT32 column with `max_def = 1` whose
definition-level stream is empty (declared length 0) while the header
claims two values also does not abort — `get_batch` zero-fills the
levels, every slot reads as null, and `read_data_page` returns normally
with two nulls. -/
theorem claim_C7_counterexample :
    readDataPage ParquetType.INT32 1 0 2 Encoding.PLAIN none [0, 0, 0, 0]
      = some [Value.null, Value.null] := by
  decide

/-- C10: the dictionary-index loop of
`StringColumnIterator::decode_next_page` silently drops every non-null
slot whose index is out of range: it yields one string per in-range
non-null slot (so strictly fewer strings than non-null slots as soon as
one index is out of range), raising no error, while the same page
decoded through `ColumnReader::read_all`'s loop keeps one value per
slot. -/
theorem claim_C10_iterator_drops (maxDef : Nat) (dictS : List (List Nat))
    (dictV : List Value) (indices : List Int) :
    ∀ (levels : List Nat) (ipos : Nat),
    (iterDictLoop maxDef dictS indices levels ipos).length
        + oorCount maxDef dictS.length indices levels ipos
      = (levels.filter (fun l => l = maxDef)).length
    ∧ (0 < oorCount maxDef dictS.length indices levels ipos →
        (iterDictLoop maxDef dictS indices levels ipos).length
          < (levels.filter (fun l => l = maxDef)).length)
    ∧ (dictDecodeLoop maxDef dictV indices levels ipos).length = levels.length := by
  intro levels
  induction levels with
  | nil =>
    intro ipos
    exact ⟨rfl, fun hc => absurd hc (by simp [oorCount, iterDictLoop]), rfl⟩
  | cons l rest ih =>
    intro ipos
    have h3 : (dictDecodeLoop maxDef dictV indices (l :: rest) ipos).length
        = (l :: rest).length := by
      by_cases hl : l < maxDef
      · simp [dictDecodeLoop, hl, (ih ipos).2.2]
      · simp [dictDecodeLoop, hl, (ih (ipos + 1)).2.2]
    have h1 : (iterDictLoop maxDef dictS indices (l :: rest) ipos).length
        + oorCount maxDef dictS.length indices (l :: rest) ipos
        = ((l :: rest).filter (fun l => l = maxDef)).length := by
      by_cases hm : l = maxDef
      · by_cases hr : 0 ≤ indices.getD ipos 0
            ∧ indices.getD ipos 0 < (dictS.length : Int)
        · have hrec := (ih (ipos + 1)).1
          simp only [iterDictLoop, oorCount, if_pos hm, if_pos hr,
            List.filter_cons, List.length_cons]
          simp only [hm, decide_True, if_true, List.length_cons]
          omega
        · have hrec := (ih (ipos + 1)).1
          simp only [iterDictLoop, oorCount, if_pos hm, if_neg hr,
            List.filter_cons]
          simp only [hm, decide_True, if_true, List.length_cons]
          omega
      · have hrec := (ih ipos).1
        simp only [iterDictLoop, oorCount, if_neg hm, List.filter_cons]
        rw [if_neg (by simp [hm])]
        omega
    exact ⟨h1, fun hpos => by omega, h3⟩

/-- Witness for C10: one non-null slot, index 3 out of range for the
one-entry dictionary — the iterator yields strictly fewer strings than
non-null slots. -/
theorem claim_C10_witness :
    (iterDictLoop 1 [[97]] [3] [1] 0).length
      < (([1] : List Nat).filter (fun l => l = 1)).length :=
  (claim_C10_iterator_drops 1 [[97]] [Value.str [97]] [3] [1] 0).2.1 (by decide)

/-- C5: corrected.  Name lookup through `find_column` resolves a
duplicated column name to the LAST leaf bearing it in schema order (the
index map's `operator[]` overwrites earlier insertions), not the first;
access by numeric index (`column(i)`) is exact. -/
theorem claim_C5_name_lookup (cols : List ColumnInfo) (name : String) :
    (∀ i : Nat, findColumn cols name = some i ↔
      ∃ h : i < cols.length, (cols.get ⟨i, h⟩).name = name
        ∧ ∀ j (hj : j < cols.length), i < j → (cols.get ⟨j, hj⟩).name ≠ name)
    ∧ ∀ k (hk : k < cols.length), columnAt cols k = some (cols.get ⟨k, hk⟩) := by
  constructor
  · induction cols using List.reverseRecOn with
    | nil =>
      intro i
      constructor
      · intro hcontra
        exact absurd hcontra (by simp [findColumn, buildColumnIndex])
      · rintro ⟨hlt, -, -⟩
        exact absurd hlt (by simp)
    | append_singleton cols c ih =>
      intro i
      by_cases hn : c.name = name
      · have hlk : findColumn (cols ++ [c]) name = some cols.length := by
          rw [findColumn, buildColumnIndex_append, List.lookup_cons,
            show (name == c.name) = true from beq_iff_eq.mpr hn.symm]
        rw [hlk]
        constructor
        · intro hsome
          obtain rfl : cols.length = i := Option.some.inj hsome
          refine ⟨by simp, ?_, ?_⟩
          · simp only [List.get_eq_getElem]
            rw [List.getElem_concat_length cols c cols.length rfl]
            exact hn
          · intro j hj hij
            exact absurd hij
              (by simp only [List.length_append, List.length_singleton] at hj; omega)
        · rintro ⟨hlt, hname, hlast⟩
          have hieq : i = cols.length := by
            by_contra hne
            have hilt : i < cols.length := by
              simp only [List.length_append, List.length_singleton] at hlt
              omega
            exact hlast cols.length
              (by simp only [List.length_append, List.length_singleton]; omega)
              hilt
              (by simp only [List.get_eq_getElem]
                  rw [List.getElem_concat_length cols c cols.length rfl]
                  exact hn)
          rw [hieq]
      · have hlk : findColumn (cols ++ [c]) name = findColumn cols name := by
          rw [findColumn, buildColumnIndex_append, List.lookup_cons,
            show (name == c.name) = false from beq_eq_false_iff_ne.mpr (Ne.symm hn)]
          rfl
        rw [hlk, ih i]
        constructor
        · rintro ⟨hlt, hname, hlast⟩
          refine ⟨by simp only [List.length_append, List.length_singleton]; omega,
            ?_, ?_⟩
          · simp only [List.get_eq_getElem] at hname ⊢
            rw [List.getElem_append_left hlt]
            exact hname
          · intro j hj hij
            by_cases hjlen : j < cols.length
            · simp only [List.get_eq_getElem]
              rw [List.getElem_append_left hjlen]
              exact hlast j hjlen hij
            · have hj2 : j = cols.length := by
                simp only [List.length_append, List.length_singleton] at hj
                omega
              subst hj2
              simp only [List.get_eq_getElem]
              rw [List.getElem_concat_length cols c cols.length rfl]
              exact hn
        · rintro ⟨hlt, hname, hlast⟩
          have hilt : i < cols.length := by
            by_contra hile
            have hieq : i = cols.length := by
              simp only [List.length_append, List.length_singleton] at hlt
              omega
            subst hieq
            apply hn
            simp only [List.get_eq_getElem] at hname
            rw [List.getElem_concat_length cols c cols.length rfl] at hname
            exact hname
          refine ⟨hilt, ?_, ?_⟩
          · simp only [List.get_eq_getElem] at hname ⊢
            rw [List.getElem_append_left hilt] at hname
            exact hname
          · intro j hj hij
            have hjlt : j < (cols ++ [c]).length := by
              simp only [List.length_append, List.length_singleton]
              omega
            have hne := hlast j hjlt hij
            simp only [List.get_eq_getElem] at hne ⊢
            rwa [List.getElem_append_left hj] at hne
  · intro k hk
    simp [columnAt, hk]

/-- C5 counterexample to the original claim's "resolves to the FIRST
matching column": on a schema with two leaves named "x", `find_column`
returns index 1 (the last), not 0. -/
theorem claim_C5_counterexample :
    (buildColumnInfo dupSchema).map ColumnInfo.name = ["x", "x"]
    ∧ findColumn (buildColumnInfo dupSchema) "x" = some 1
    ∧ findColumn (buildColumnInfo dupSchema) "x" ≠ some 0 := by
  refine ⟨rfl, rfl, by decide⟩

/-- Witness for C5's amended statement at the duplicate-name schema. -/
theorem claim_C5_witness :
    findColumn (buildColumnInfo dupSchema) "x" = some 1 := by
  refine ((claim_C5_name_lookup (buildColumnInfo dupSchema) "x").1 1).mpr
    ⟨by decide, by decide, ?_⟩
  intro j hj hij
  have hl : (buildColumnInfo dupSchema).length = 2 := rfl
  rw [hl] at hj
  exact absurd hij (by omega)

/-- C6: `analyze_column` chooses dictionary encoding exactly when the
column has at least one distinct non-null value and the number of
distinct non-null values is at most one fifth (integer division) of the
number of non-null values. -/
theorem claim_C6_dictionary_threshold (values : List Value) :
    (analyzeColumn values).useDictionary = true ↔
      (0 < ((values.filter (fun v => v ≠ Value.null)).dedup).length
        ∧ ((values.filter (fun v => v ≠ Value.null)).dedup).length
            ≤ (values.filter (fun v => v ≠ Value.null)).length / 5) := by
  obtain ⟨h1, h2, h3, h4⟩ := analyzeGo_spec values 0 [] []
    (by
      intro u
      constructor
      · rintro ⟨n, hn⟩
        exact absurd hn (List.not_mem_nil _)
      · intro hu
        exact absurd hu (List.not_mem_nil u))
    List.nodup_nil
  have hD : (analyzeGo values 0 [] []).2.1.length
      = ((values.filter (fun v => v ≠ Value.null)).dedup).length := by
    rw [← List.toFinset_card_of_nodup h2, h3]
    simp only [List.toFinset_nil, Finset.empty_union]
    exact List.card_toFinset _
  have hN : (analyzeGo values 0 [] []).1
      = (values.filter (fun v => v ≠ Value.null)).length := by
    rw [h1]
    omega
  rw [analyzeColumn]
  split
  · rename_i hcond
    simp only [Bool.false_eq_true, false_iff]
    rintro ⟨ha, hb⟩
    rw [← hD] at ha hb
    rw [← hN] at hb
    rcases hcond with hc | hc
    · omega
    · omega
  · rename_i hcond
    refine ⟨fun _ => ?_, fun _ => rfl⟩
    push_neg at hcond
    obtain ⟨hc1, hc2⟩ := hcond
    constructor
    · rw [← hD]
      omega
    · rw [← hD, ← hN]
      omega

end ParquetParser
